import Mathlib

/-!
# Verification of the SimpleDataTransferScheduler

A shallow embedding of `src/main.py` (class `NetworkScheduler`): a TDMA-style
scheduler that derives per-link transmission counts by accumulation over a
topological order (Kahn's algorithm), expands them into transmission instances,
builds an interference graph, colors it greedily into time slots, and packs
same-slot transmissions into channels separated by hop distance ≥ 3
(all-pairs distances by Floyd–Warshall with the finite sentinel `10^9`).

Python's mutable dictionaries and sets are rendered as insertion-ordered
lists and as total functions updated pointwise; the scheduler object is the
record `NetworkScheduler`; methods that raise return `Option`.
Python iterates `set` objects in an unspecified order; the embedding fixes
insertion order for the device set and the adjacency sets, which is the
standard determinization (all properties proved below are independent of
this choice).
-/

/-- The topology part of the scheduler state: `self.devices` (insertion
ordered, duplicate-free by construction), `self.connections` (the directed
links, flattened to a list of pairs; `self.connections[u]` is recovered by
`conns`), and `self.original_packets`. -/
structure Topo where
  devices : List String
  connections : List (String × String)
  orig : List (String × Nat)

/-- Well-formedness of a topology as built through the registration API:
no duplicate devices or links, and every link endpoint is a registered
device (enforced by `add_transmission_path`). -/
structure WFt (t : Topo) : Prop where
  devNodup : t.devices.Nodup
  connNodup : t.connections.Nodup
  sendMem : ∀ e ∈ t.connections, e.1 ∈ t.devices
  recvMem : ∀ e ∈ t.connections, e.2 ∈ t.devices

/-- `self.connections[u]`: the receivers of `u`, in link insertion order. -/
def conns (t : Topo) (u : String) : List String :=
  (t.connections.filter (fun e => decide (e.1 = u))).map (fun e => e.2)

/-- `dict.get(key, dflt)` on an association list. -/
def getEntry : List (String × Nat) → String → Nat → Nat
  | [], _, d => d
  | (k, v) :: rest, key, d => if k = key then v else getEntry rest key d

/-- `dict[key] = v`: overwrite an existing binding or append a new one. -/
def updEntry : List (String × Nat) → String → Nat → List (String × Nat)
  | [], key, v => [(key, v)]
  | (k, w) :: rest, key, v =>
    if k = key then (key, v) :: rest else (k, w) :: updEntry rest key v

/-- The full `NetworkScheduler` object: the topology fields plus the
derived fields that `generate_schedule` writes (`self.shortest_path`,
`self.total_transmissions`, `self.interference_graph`,
`self.transmissions`). -/
structure NetworkScheduler where
  devices : List String
  connections : List (String × String)
  originalPackets : List (String × Nat)
  totalTransmissions : String → String → Nat
  interferenceGraph : List (Nat × List Nat)
  shortestPath : String → String → Nat
  transmissions : List (String × String)

/-- The topology snapshot held by a scheduler object. -/
def NetworkScheduler.topo (s : NetworkScheduler) : Topo :=
  ⟨s.devices, s.connections, s.originalPackets⟩

/-- `NetworkScheduler.__init__`: everything empty, the default-0
dictionaries as constant functions. -/
def initScheduler : NetworkScheduler :=
  { devices := []
    connections := []
    originalPackets := []
    totalTransmissions := fun _ _ => 0
    interferenceGraph := []
    shortestPath := fun _ _ => 0
    transmissions := [] }

/-- `add_device(device_id, packets)`: set-insert the id and overwrite the
rate binding. -/
def add_device (s : NetworkScheduler) (device_id : String) (packets : Nat) :
    NetworkScheduler :=
  { s with
    devices := if device_id ∈ s.devices then s.devices else s.devices ++ [device_id]
    originalPackets := updEntry s.originalPackets device_id packets }

/-- `add_transmission_path(sender, receiver)`: `none` models the
`ValueError` when an endpoint is unregistered; otherwise set-insert the
directed link. -/
def add_transmission_path (s : NetworkScheduler) (sender receiver : String) :
    Option NetworkScheduler :=
  if sender ∈ s.devices ∧ receiver ∈ s.devices then
    some { s with
      connections :=
        if (sender, receiver) ∈ s.connections then s.connections
        else s.connections ++ [(sender, receiver)] }
  else none

/-- Unwrapped `add_transmission_path` for building concrete topologies
whose endpoints are known to be registered. -/
def addPath (s : NetworkScheduler) (sender receiver : String) : NetworkScheduler :=
  (add_transmission_path s sender receiver).getD s

/-! ## Kahn's algorithm (`_calculate_forwarding_requirements`) -/

/-- Pointwise update of a one-argument dictionary-as-function. -/
def upd1 {α : Type} (f : String → α) (x : String) (v : α) : String → α :=
  fun y => if y = x then v else f y

/-- Pointwise update of a two-level dictionary-as-function. -/
def upd2 (f : String → String → Nat) (a b : String) (v : Nat) :
    String → String → Nat :=
  fun x y => if x = a ∧ y = b then v else f x y

/-- The loop state of `_calculate_forwarding_requirements`: the pending
queue, the in-degree table, the accumulated packet totals and the
transmission counts.  `processed` is a ghost field recording the devices
dequeued so far, in order; it shadows no Python state and is used only to
state invariants. -/
structure KahnState where
  queue : List String
  processed : List String
  indeg : String → Int
  totalPackets : String → Nat
  tt : String → String → Nat

/-- The body of `for neighbor in self.connections[current]`: add the
current packets to the neighbour's total, record the transmission,
decrement the in-degree and enqueue the neighbour when it reaches zero. -/
def processNeighbor (cp : Nat) (current : String) (st : KahnState) (nb : String) :
    KahnState :=
  let ind := upd1 st.indeg nb (st.indeg nb - 1)
  { queue := if st.indeg nb - 1 = 0 then st.queue ++ [nb] else st.queue
    processed := st.processed
    indeg := ind
    totalPackets := upd1 st.totalPackets nb (st.totalPackets nb + cp)
    tt := upd2 st.tt current nb (st.tt current nb + cp) }

/-- One iteration of the `while queue:` loop: pop the front device and
process all its outgoing links. -/
def kahnStep (t : Topo) (st : KahnState) : KahnState :=
  match st.queue with
  | [] => st
  | current :: rest =>
    (conns t current).foldl (processNeighbor (st.totalPackets current) current)
      { st with queue := rest, processed := st.processed ++ [current] }

/-- The `while queue:` loop, run with explicit fuel.  `t.devices.length`
steps always suffice (each iteration moves one fresh device to
`processed`; see `kahnRun_queue_empty`). -/
def kahnRun (t : Topo) : Nat → KahnState → KahnState
  | 0, st => st
  | n + 1, st => if st.queue.isEmpty then st else kahnRun t n (kahnStep t st)

/-- The initial in-degree of `v`: the number of links pointing at it. -/
def indeg0 (t : Topo) (v : String) : Int :=
  ((t.connections.filter (fun e => decide (e.2 = v))).length : Int)

/-- The incoming links of `v`. -/
def inEdges (t : Topo) (v : String) : List (String × String) :=
  t.connections.filter (fun e => decide (e.2 = v))

/-- The state before the `while queue:` loop: queue of in-degree-0
devices, packet totals seeded with the generation rates, counts cleared. -/
def kahnInit (t : Topo) : KahnState :=
  { queue := t.devices.filter (fun d => decide (indeg0 t d = 0))
    processed := []
    indeg := indeg0 t
    totalPackets := fun v => getEntry t.orig v 0
    tt := fun _ _ => 0 }

/-- `_calculate_forwarding_requirements`: run the loop, then `none`
models the `ValueError` raised when some in-degree stayed positive;
otherwise the computed `total_transmissions`. -/
def calcForwardingD (t : Topo) : Option (String → String → Nat) :=
  let fin := kahnRun t t.devices.length (kahnInit t)
  if t.devices.any (fun v => decide (0 < fin.indeg v)) then none else some fin.tt

/-! ## Floyd–Warshall (`_calculate_shortest_path_between_all_nodes`) -/

/-- An undirected edge as iterated when seeding the distance table:
`shortest_path[sender][receiver] = shortest_path[receiver][sender] = 1`
for every `sender` in the device set and `receiver` in its adjacency. -/
def undirAdj (t : Topo) (i j : String) : Prop :=
  ((i, j) ∈ t.connections ∧ i ∈ t.devices) ∨ ((j, i) ∈ t.connections ∧ j ∈ t.devices)

instance (t : Topo) (i j : String) : Decidable (undirAdj t i j) := by
  unfold undirAdj; infer_instance

/-- The distance table after the three seeding loops, as the value each
cell holds once all writes are done (later writes override earlier ones:
edges over the diagonal over the `10^9` fill over the `defaultdict`
default `0`). -/
def spInitD (t : Topo) : String → String → Nat := fun i j =>
  if undirAdj t i j then 1
  else if i = j ∧ i ∈ t.devices then 0
  else if i ∈ t.devices ∧ j ∈ t.devices then 1000000000
  else 0

/-- Pointwise update of the distance table. -/
def updD (d : String → String → Nat) (i j : String) (v : Nat) :
    String → String → Nat :=
  fun x y => if x = i ∧ y = j then v else d x y

/-- The innermost relaxation
`d[i][j] = min(d[i][j], d[i][k] + d[k][j])`. -/
def fwUpd (k i j : String) (d : String → String → Nat) :
    String → String → Nat :=
  updD d i j (min (d i j) (d i k + d k j))

/-- The `for j_device in self.devices` loop for fixed `k`, `i`. -/
def fwRow (k i : String) (js : List String) (d : String → String → Nat) :
    String → String → Nat :=
  js.foldl (fun d j => fwUpd k i j d) d

/-- The `for i_device in self.devices` loop for fixed `k`. -/
def fwStep (k : String) (is js : List String) (d : String → String → Nat) :
    String → String → Nat :=
  is.foldl (fun d i => fwRow k i js d) d

/-- `_calculate_shortest_path_between_all_nodes`: seed, then relax
through every intermediate device. -/
def shortestPathsD (t : Topo) : String → String → Nat :=
  t.devices.foldl (fun d k => fwStep k t.devices t.devices d) (spInitD t)

/-! ## Interference graph (`_build_interference_graph`) -/

/-- `self.transmissions`: one instance per unit of count, devices in
registration order, receivers in link insertion order (the iteration
order of `self.total_transmissions[sender].items()`). -/
def buildTransD (t : Topo) (ttf : String → String → Nat) : List (String × String) :=
  (t.devices.map (fun sender =>
    ((conns t sender).map (fun receiver =>
      List.replicate (ttf sender receiver) (sender, receiver))).flatten)).flatten

/-- `trans1` and `trans2` interfere: shared sender, shared receiver, or a
receiver of one is the sender of the other. -/
def interferesB (t1 t2 : String × String) : Bool :=
  t1.1 == t2.1 || t1.2 == t2.2 || t1.1 == t2.2 || t2.1 == t1.2

/-- The node list (key order) of the interference graph. -/
def igNodes (g : List (Nat × List Nat)) : List Nat := g.map (fun p => p.1)

/-- The neighbour set of `i` (empty when `i` is not a key). -/
def igNbrs (g : List (Nat × List Nat)) (i : Nat) : List Nat :=
  match g.find? (fun p => p.1 == i) with
  | some p => p.2
  | none => []

/-- `self.interference_graph[i].add(j)`: set-insert `j` into the entry
of `i`, creating the entry at the end when missing. -/
def igAddNbr : List (Nat × List Nat) → Nat → Nat → List (Nat × List Nat)
  | [], i, j => [(i, [j])]
  | (k, ns) :: rest, i, j =>
    if k = i then (k, if j ∈ ns then ns else ns ++ [j]) :: rest
    else (k, ns) :: igAddNbr rest i j

/-- The two symmetric insertions performed for an interfering pair. -/
def igAdd (g : List (Nat × List Nat)) (i j : Nat) : List (Nat × List Nat) :=
  igAddNbr (igAddNbr g i j) j i

/-- The double loop of `_build_interference_graph`, accumulating into the
(not cleared!) existing graph `g0`. -/
def buildIG (trans : List (String × String)) (g0 : List (Nat × List Nat)) :
    List (Nat × List Nat) :=
  (List.range trans.length).foldl (fun g i =>
    (List.range trans.length).foldl (fun g j =>
      if i < j then
        if interferesB (trans.getD i ("", "")) (trans.getD j ("", "")) then igAdd g i j
        else g
      else g) g) g0

/-! ## Greedy coloring (`_color_graph`) -/

/-- `colors[i]` on the association list of assigned colors. -/
def lookupC (colors : List (Nat × Nat)) (i : Nat) : Option Nat :=
  match colors.find? (fun p => p.1 == i) with
  | some p => some p.2
  | none => none

/-- The colors already used by the neighbours of `node`. -/
def usedColors (g : List (Nat × List Nat)) (colors : List (Nat × Nat))
    (node : Nat) : List Nat :=
  (igNbrs g node).filterMap (fun nb => lookupC colors nb)

/-- `while color in used_colors: color += 1`, with explicit fuel
(`used.length + 1` suffices: some color `≤ used.length` is free). -/
def firstFree (used : List Nat) : Nat → Nat → Nat
  | 0, c => c
  | f + 1, c => if c ∈ used then firstFree used f (c + 1) else c

/-- The smallest color not used by an already-colored neighbour. -/
def pickColor (used : List Nat) : Nat := firstFree used (used.length + 1) 0

/-- The interference degree of a node. -/
def degIG (g : List (Nat × List Nat)) (i : Nat) : Nat := (igNbrs g i).length

/-- Stable insertion (descending by degree) for `sorted(..., reverse=True)`:
an element is placed before the first one of strictly smaller or equal
degree seen later in the original order. -/
def sortIns (g : List (Nat × List Nat)) (x : Nat) : List Nat → List Nat
  | [] => [x]
  | y :: ys => if degIG g y ≤ degIG g x then x :: y :: ys else y :: sortIns g x ys

/-- `sorted(self.interference_graph.keys(), key=degree, reverse=True)`
(stable). -/
def sortedNodes (g : List (Nat × List Nat)) : List Nat :=
  (igNodes g).foldr (sortIns g) []

/-- `_color_graph`: greedy coloring in sorted order; the association list
keeps the assignment order (= `colors.items()` order). -/
def colorGraph (g : List (Nat × List Nat)) : List (Nat × Nat) :=
  (sortedNodes g).foldl
    (fun colors node => colors ++ [(node, pickColor (usedColors g colors node))]) []

/-- `max(colors.values()) + 1` when colors exist, else `0`
(`max_slot = -1`). -/
def maxSlotNat (colors : List (Nat × Nat)) : Nat :=
  if colors.isEmpty then 0 else (colors.map (fun p => p.2)).foldl max 0 + 1

/-! ## `generate_schedule` and `optimize_schedule` -/

/-- `generate_schedule`: the full pipeline.  `none` models the
`ValueError` escaping from `_calculate_forwarding_requirements`; on
success the slot lists are returned together with the updated scheduler
object (Python mutates `self` in place). -/
def generate_schedule (s : NetworkScheduler) :
    Option (List (List (String × String)) × NetworkScheduler) :=
  let sp := shortestPathsD s.topo
  match calcForwardingD s.topo with
  | none => none
  | some ttf =>
    let trans := buildTransD s.topo ttf
    let ig := buildIG trans s.interferenceGraph
    let colors := colorGraph ig
    let sched := (List.range (maxSlotNat colors)).map (fun slot =>
      (colors.filter (fun p => p.2 == slot)).map (fun p => trans.getD p.1 ("", "")))
    some (sched, { s with
      shortestPath := sp
      totalTransmissions := ttf
      interferenceGraph := ig
      transmissions := trans })

/-- `check_shortest_path(transmission1, transmission2)`. -/
def checkSP (d : String → String → Nat) (t1 t2 : String × String) : Nat :=
  min (d t1.1 t2.2) (d t1.2 t2.1)

/-- The `for j in range(i+1, ...)` scan filling one channel: `added` is
the channel under construction, `cs` the `added_transmissions_check`
keys. -/
def packChannel (d : String → String → Nat) (added cs : List (String × String)) :
    List (String × String) → List (String × String) × List (String × String)
  | [] => (added, cs)
  | y :: ys =>
    if added.all (fun k => decide (3 ≤ checkSP d y k)) then
      packChannel d (added ++ [y]) (cs ++ [y]) ys
    else packChannel d added cs ys

/-- The `for i in range(len(transmissions))` loop over one time slot. -/
def packSlot (d : String → String → Nat) (cs : List (String × String))
    (chans : List (List (String × String))) :
    List (String × String) → List (List (String × String))
  | [] => chans
  | x :: rest =>
    if x ∈ cs then packSlot d cs chans rest
    else
      let r := packChannel d [x] (cs ++ [x]) rest
      packSlot d r.2 (chans ++ [r.1]) rest

/-- `optimize_schedule(schedule)`: partition each slot into channels
using the stored `self.shortest_path`. -/
def optimize_schedule (s : NetworkScheduler)
    (schedule : List (List (String × String))) :
    List (List (List (String × String))) :=
  schedule.map (fun slotT => packSlot s.shortestPath [] [] slotT)

/-! ## Derived notions used by the claims -/

/-- A directed link, as a relation. -/
def edgeRel (t : Topo) (a b : String) : Prop := (a, b) ∈ t.connections

/-- The directed link graph has a cycle. -/
def hasCycle (t : Topo) : Prop := ∃ v, Relation.TransGen (edgeRel t) v v

/-- Reachability in the undirected closure of the link set. -/
def undirReach (t : Topo) (u v : String) : Prop :=
  Relation.ReflTransGen (undirAdj t) u v

/-- The packets forwarded to `u` over its incoming links under counts
`ttf` (the claim C6 notion "sum of the counts recorded on all of `u`'s
incoming links"). -/
def recvSum (t : Topo) (ttf : String → String → Nat) (u : String) : Nat :=
  ((inEdges t u).map (fun e => ttf e.1 u)).sum

/-! ## Basic lemmas about the dictionary embeddings -/

theorem upd1_same {α : Type} (f : String → α) (x : String) (v : α) :
    upd1 f x v x = v := by simp [upd1]

theorem upd1_other {α : Type} (f : String → α) (x y : String) (v : α)
    (h : y ≠ x) : upd1 f x v y = f y := by simp [upd1, h]

theorem upd2_get (f : String → String → Nat) (a b x y : String) (v : Nat) :
    upd2 f a b v x y = if x = a ∧ y = b then v else f x y := rfl

theorem getEntry_updEntry_same (l : List (String × Nat)) (k : String) (v d : Nat) :
    getEntry (updEntry l k v) k d = v := by
  induction l with
  | nil => simp [updEntry, getEntry]
  | cons e rest ih =>
    by_cases h : e.1 = k
    · simp [updEntry, h, getEntry]
    · simp [updEntry, h, getEntry, ih]

theorem mem_conns {t : Topo} {u v : String} :
    v ∈ conns t u ↔ (u, v) ∈ t.connections := by
  constructor
  · intro h
    rcases List.mem_map.mp h with ⟨e, he, rfl⟩
    rcases List.mem_filter.mp he with ⟨hmem, hdec⟩
    have : e.1 = u := by simpa using hdec
    rw [show ((u, e.2) : String × String) = e by cases e; simp_all]
    exact hmem
  · intro h
    refine List.mem_map.mpr ⟨(u, v), List.mem_filter.mpr ⟨h, by simp⟩, rfl⟩

/-! ## C9: re-registering a device id (last-write-wins, links untouched) -/

/-- C9: `add_device(id, r1)` then `add_device(id, r2)` never raises, leaves
the device registered exactly once with stored rate `r2`, and leaves the
link set untouched. -/
theorem c9_add_device_overwrite (s : NetworkScheduler) (hnd : s.devices.Nodup)
    (id : String) (r1 r2 : Nat) :
    (add_device (add_device s id r1) id r2).devices.count id = 1 ∧
    getEntry (add_device (add_device s id r1) id r2).originalPackets id 0 = r2 ∧
    (add_device (add_device s id r1) id r2).connections = s.connections := by
  refine ⟨?_, ?_, rfl⟩
  · by_cases h : id ∈ s.devices
    · simp only [add_device, h, if_pos]
      exact List.count_eq_one_of_mem hnd h
    · simp only [add_device, h, if_neg, not_false_iff, List.mem_append,
        List.mem_singleton, or_true, if_pos, if_true]
      rw [List.count_append]
      simp [List.count_eq_zero.mpr h]
  · simp only [add_device]
    exact getEntry_updEntry_same _ _ _ _

/-- Witness for C9 at a concrete scheduler and id. -/
theorem c9_witness :
    (add_device (add_device initScheduler "A" 0) "A" 5).devices.count "A" = 1 ∧
    getEntry (add_device (add_device initScheduler "A" 0) "A" 5).originalPackets "A" 0 = 5 ∧
    (add_device (add_device initScheduler "A" 0) "A" 5).connections = initScheduler.connections :=
  c9_add_device_overwrite initScheduler (by decide) "A" 0 5

/-! ## C1: scenario 1 transmission requirements -/

/-- The Scenario 1 topology: devices `A`..`H` with generation rate 1 each
and the diamond-plus-chain links (exactly `example_usage` in the source). -/
def scenario1 : NetworkScheduler :=
  addPath (addPath (addPath (addPath (addPath (addPath (addPath (addPath
    (add_device (add_device (add_device (add_device (add_device (add_device
      (add_device (add_device initScheduler "A" 1) "B" 1) "C" 1) "D" 1)
      "E" 1) "F" 1) "G" 1) "H" 1)
    "A" "B") "A" "C") "B" "D") "C" "D") "D" "E") "E" "F") "F" "G") "G" "H"

/-- C1 counterexample: on Scenario 1 with rate 1 each, the computed
per-link requirement report is **not** the claimed
`A→B=1, A→C=1, B→D=1, C→D=1, D→E=2, E→F=2, F→G=2, G→H=2`. -/
theorem c1_counterexample :
    ¬ ((calcForwardingD scenario1.topo).map (fun ttf =>
        scenario1.topo.connections.map (fun e => ((e.1, e.2), ttf e.1 e.2))) =
      some [(("A", "B"), 1), (("A", "C"), 1), (("B", "D"), 1), (("C", "D"), 1),
            (("D", "E"), 2), (("E", "F"), 2), (("F", "G"), 2), (("G", "H"), 2)]) := by
  decide

/-- C1 (amended): on Scenario 1 with rate 1 each, the accumulation over
the topological order produces exactly the counts
`A→B=1, A→C=1, B→D=2, C→D=2, D→E=5, E→F=6, F→G=7, G→H=8`
(every device contributes its own packet on top of what it relays). -/
theorem c1_scenario1_requirements :
    (calcForwardingD scenario1.topo).map (fun ttf =>
        scenario1.topo.connections.map (fun e => ((e.1, e.2), ttf e.1 e.2))) =
      some [(("A", "B"), 1), (("A", "C"), 1), (("B", "D"), 2), (("C", "D"), 2),
            (("D", "E"), 5), (("E", "F"), 6), (("F", "G"), 7), (("G", "H"), 8)] := by
  decide

/-! ## C2: conservation fails — instances without conflicts are dropped -/

/-- The failing topology for C2: two devices, one link `A→B`, rate 1.
The single required transmission has no interference neighbour, so it
never becomes a key of `interference_graph` and the coloring (which
iterates the keys) never schedules it. -/
def cex2 : NetworkScheduler :=
  addPath (add_device (add_device initScheduler "A" 1) "B" 1) "A" "B"

/-- C2 (code bug): on `cex2` the requirement `A→B = 1` yields one
transmission instance, but the returned schedule is empty — the total
pair count over all slots is `0 ≠ 1`, violating conservation. -/
theorem c2_conservation_fails :
    (generate_schedule cex2).map (fun r =>
        (r.1, r.2.transmissions.length, r.2.totalTransmissions "A" "B")) =
      some ([], 1, 1) := by
  decide

/-! ## Lemmas about the greedy color choice -/

theorem firstFree_mem_of_lt (used : List Nat) :
    ∀ (f c₀ c : Nat), c₀ ≤ c → c < firstFree used f c₀ → c ∈ used := by
  intro f
  induction f with
  | zero => intro c₀ c hle hlt; simp [firstFree] at hlt; omega
  | succ f ih =>
    intro c₀ c hle hlt
    by_cases h : c₀ ∈ used
    · simp only [firstFree, h, if_pos] at hlt
      rcases Nat.eq_or_lt_of_le hle with rfl | hlt'
      · exact h
      · exact ih (c₀ + 1) c hlt' hlt
    · simp only [firstFree, h, if_neg, not_false_iff] at hlt; omega

theorem firstFree_not_mem (used : List Nat) :
    ∀ (f c₀ : Nat), (∃ c, c₀ ≤ c ∧ c < c₀ + f ∧ c ∉ used) →
      firstFree used f c₀ ∉ used := by
  intro f
  induction f with
  | zero => rintro c₀ ⟨c, h1, h2, _⟩; omega
  | succ f ih =>
    rintro c₀ ⟨c, h1, h2, h3⟩
    by_cases h : c₀ ∈ used
    · simp only [firstFree, h, if_pos]
      refine ih (c₀ + 1) ⟨c, ?_, by omega, h3⟩
      rcases Nat.eq_or_lt_of_le h1 with rfl | hlt'
      · exact absurd h h3
      · exact hlt'
    · simp [firstFree, h]

theorem pickColor_not_mem (used : List Nat) : pickColor used ∉ used := by
  refine firstFree_not_mem used _ 0 ?_
  by_contra hall
  push_neg at hall
  have hsub : List.range (used.length + 1) ⊆ used := by
    intro c hc
    have := List.mem_range.mp hc
    exact hall c (by omega) (by omega)
  have := (List.subperm_of_subset (List.nodup_range _) hsub).length_le
  simp at this

theorem pickColor_min (used : List Nat) :
    ∀ c, c < pickColor used → c ∈ used := fun c hc =>
  firstFree_mem_of_lt used _ 0 c (Nat.zero_le c) hc

/-! ## Lemmas about the interference-graph structure -/

theorem igNbrs_not_key {g : List (Nat × List Nat)} {b : Nat}
    (h : b ∉ igNodes g) : igNbrs g b = [] := by
  induction g with
  | nil => rfl
  | cons e rest ih =>
    simp only [igNodes, List.map_cons, List.mem_cons] at h
    push_neg at h
    simp only [igNbrs, List.find?]
    rw [show (e.1 == b) = false by simpa using Ne.symm h.1]
    exact ih h.2

theorem igNodes_igAddNbr (g : List (Nat × List Nat)) (i j : Nat) :
    igNodes (igAddNbr g i j) =
      if i ∈ igNodes g then igNodes g else igNodes g ++ [i] := by
  induction g with
  | nil => simp [igAddNbr, igNodes]
  | cons e rest ih =>
    rcases e with ⟨k, ns⟩
    by_cases h : k = i
    · subst h
      simp [igAddNbr, igNodes]
    · simp only [igAddNbr, h, if_neg, not_false_iff, igNodes, List.map_cons] at ih ⊢
      by_cases h2 : i ∈ igNodes rest
      · simp only [igNodes] at h2
        simp [h2, ih, Ne.symm h]
      · simp only [igNodes] at h2
        simp [h2, ih, Ne.symm h]

theorem igNbrs_igAddNbr_same (g : List (Nat × List Nat)) (i j : Nat) :
    igNbrs (igAddNbr g i j) i =
      if j ∈ igNbrs g i then igNbrs g i else igNbrs g i ++ [j] := by
  induction g with
  | nil => simp [igAddNbr, igNbrs, List.find?]
  | cons e rest ih =>
    rcases e with ⟨k, ns⟩
    by_cases h : k = i
    · subst h
      simp [igAddNbr, igNbrs, List.find?]
    · simp only [igAddNbr, h, if_neg, not_false_iff]
      simp only [igNbrs, List.find?] at ih ⊢
      rw [show (k == i) = false by simpa using h]
      exact ih

theorem igNbrs_igAddNbr_other (g : List (Nat × List Nat)) (i j b : Nat)
    (h : b ≠ i) : igNbrs (igAddNbr g i j) b = igNbrs g b := by
  induction g with
  | nil => simp [igAddNbr, igNbrs, List.find?, show (i == b) = false by simpa using Ne.symm h]
  | cons e rest ih =>
    rcases e with ⟨k, ns⟩
    by_cases hk : k = i
    · subst hk
      simp [igAddNbr, igNbrs, List.find?, show (k == b) = false by simpa using fun hh => h hh.symm]
    · simp only [igAddNbr, hk, if_neg, not_false_iff]
      simp only [igNbrs, List.find?] at ih ⊢
      cases hkb : (k == b) <;> simp [ih]

theorem mem_igNbrs_igAdd {g : List (Nat × List Nat)} {i j : Nat} (hij : i ≠ j)
    (a b : Nat) :
    a ∈ igNbrs (igAdd g i j) b ↔
      a ∈ igNbrs g b ∨ (b = i ∧ a = j) ∨ (b = j ∧ a = i) := by
  unfold igAdd
  by_cases hbj : b = j
  · rw [hbj, igNbrs_igAddNbr_same, igNbrs_igAddNbr_other g i j j (Ne.symm hij)]
    by_cases hm : i ∈ igNbrs g j
    · simp only [hm, if_pos]
      constructor
      · intro h; exact Or.inl (hbj ▸ h)
      · rintro (h | ⟨h1, -⟩ | ⟨-, rfl⟩)
        · exact hbj ▸ h
        · exact absurd (hbj ▸ h1) (Ne.symm hij)
        · exact hm
    · simp only [hm, if_neg, not_false_iff, List.mem_append, List.mem_singleton]
      constructor
      · rintro (h | rfl)
        · exact Or.inl (hbj ▸ h)
        · exact Or.inr (Or.inr ⟨trivial, rfl⟩)
      · rintro (h | ⟨h1, -⟩ | ⟨-, rfl⟩)
        · exact Or.inl (hbj ▸ h)
        · exact absurd (hbj ▸ h1) (Ne.symm hij)
        · exact Or.inr rfl
  · rw [igNbrs_igAddNbr_other _ j i _ hbj]
    by_cases hbi : b = i
    · rw [hbi, igNbrs_igAddNbr_same]
      by_cases hm : j ∈ igNbrs g i
      · simp only [hm, if_pos]
        constructor
        · intro h; exact Or.inl (hbi ▸ h)
        · rintro (h | ⟨-, rfl⟩ | ⟨h1, -⟩)
          · exact hbi ▸ h
          · exact hm
          · exact absurd (hbi ▸ h1) hbj
      · simp only [hm, if_neg, not_false_iff, List.mem_append, List.mem_singleton]
        constructor
        · rintro (h | rfl)
          · exact Or.inl (hbi ▸ h)
          · exact Or.inr (Or.inl ⟨trivial, rfl⟩)
        · rintro (h | ⟨-, rfl⟩ | ⟨h1, -⟩)
          · exact Or.inl (hbi ▸ h)
          · exact Or.inr rfl
          · exact absurd (hbi ▸ h1) hbj
    · rw [igNbrs_igAddNbr_other _ i j _ hbi]
      constructor
      · intro h; exact Or.inl h
      · rintro (h | ⟨h1, -⟩ | ⟨h1, -⟩)
        · exact h
        · exact absurd h1 hbi
        · exact absurd h1 hbj

/-- An ordered interfering pair as inserted by `_build_interference_graph`. -/
def igEdgeP (trans : List (String × String)) (p q : Nat) : Prop :=
  p < q ∧ q < trans.length ∧
    interferesB (trans.getD p ("", "")) (trans.getD q ("", "")) = true

theorem buildIG_inner_mem (trans : List (String × String)) (i : Nat)
    (l : List Nat) (g : List (Nat × List Nat)) (a b : Nat) :
    a ∈ igNbrs (l.foldl (fun g j =>
        if i < j then
          if interferesB (trans.getD i ("", "")) (trans.getD j ("", "")) then igAdd g i j
          else g
        else g) g) b ↔
      a ∈ igNbrs g b ∨ ∃ j, j ∈ l ∧ i < j ∧
        interferesB (trans.getD i ("", "")) (trans.getD j ("", "")) = true ∧
        ((b = i ∧ a = j) ∨ (b = j ∧ a = i)) := by
  induction l generalizing g with
  | nil => simp
  | cons j l ih =>
    simp only [List.foldl_cons]
    by_cases hlt : i < j
    · by_cases hintf :
        interferesB (trans.getD i ("", "")) (trans.getD j ("", "")) = true
      · rw [if_pos hlt, if_pos hintf, ih, mem_igNbrs_igAdd (Nat.ne_of_lt hlt)]
        constructor
        · rintro ((h | h) | ⟨j', hj', h1, h2, h3⟩)
          · exact Or.inl h
          · exact Or.inr ⟨j, List.mem_cons_self j l, hlt, hintf, h⟩
          · exact Or.inr ⟨j', List.mem_cons_of_mem j hj', h1, h2, h3⟩
        · rintro (h | ⟨j', hj', h1, h2, h3⟩)
          · exact Or.inl (Or.inl h)
          · rcases List.mem_cons.mp hj' with rfl | hj'
            · exact Or.inl (Or.inr h3)
            · exact Or.inr ⟨j', hj', h1, h2, h3⟩
      · rw [if_pos hlt, if_neg (by simpa using hintf), ih]
        constructor
        · rintro (h | ⟨j', hj', h1, h2, h3⟩)
          · exact Or.inl h
          · exact Or.inr ⟨j', List.mem_cons_of_mem j hj', h1, h2, h3⟩
        · rintro (h | ⟨j', hj', h1, h2, h3⟩)
          · exact Or.inl h
          · rcases List.mem_cons.mp hj' with rfl | hj'
            · exact absurd h2 hintf
            · exact Or.inr ⟨j', hj', h1, h2, h3⟩
    · rw [if_neg hlt, ih]
      constructor
      · rintro (h | ⟨j', hj', h1, h2, h3⟩)
        · exact Or.inl h
        · exact Or.inr ⟨j', List.mem_cons_of_mem j hj', h1, h2, h3⟩
      · rintro (h | ⟨j', hj', h1, h2, h3⟩)
        · exact Or.inl h
        · rcases List.mem_cons.mp hj' with rfl | hj'
          · exact absurd h1 hlt
          · exact Or.inr ⟨j', hj', h1, h2, h3⟩

theorem buildIG_outer_mem (trans : List (String × String))
    (l : List Nat) (g : List (Nat × List Nat)) (a b : Nat) :
    a ∈ igNbrs (l.foldl (fun g i =>
        (List.range trans.length).foldl (fun g j =>
          if i < j then
            if interferesB (trans.getD i ("", "")) (trans.getD j ("", "")) then igAdd g i j
            else g
          else g) g) g) b ↔
      a ∈ igNbrs g b ∨ ∃ i, i ∈ l ∧ ∃ j, j ∈ List.range trans.length ∧ i < j ∧
        interferesB (trans.getD i ("", "")) (trans.getD j ("", "")) = true ∧
        ((b = i ∧ a = j) ∨ (b = j ∧ a = i)) := by
  induction l generalizing g with
  | nil => simp
  | cons i l ih =>
    simp only [List.foldl_cons]
    rw [ih, buildIG_inner_mem]
    constructor
    · rintro ((h | ⟨j, hj, h1, h2, h3⟩) | ⟨i', hi', rest⟩)
      · exact Or.inl h
      · exact Or.inr ⟨i, List.mem_cons_self i l, j, hj, h1, h2, h3⟩
      · exact Or.inr ⟨i', List.mem_cons_of_mem i hi', rest⟩
    · rintro (h | ⟨i', hi', j, hj, h1, h2, h3⟩)
      · exact Or.inl (Or.inl h)
      · rcases List.mem_cons.mp hi' with rfl | hi'
        · exact Or.inl (Or.inr ⟨j, hj, h1, h2, h3⟩)
        · exact Or.inr ⟨i', hi', j, hj, h1, h2, h3⟩

theorem mem_igNbrs_buildIG (trans : List (String × String))
    (g0 : List (Nat × List Nat)) (a b : Nat) :
    a ∈ igNbrs (buildIG trans g0) b ↔
      a ∈ igNbrs g0 b ∨ igEdgeP trans b a ∨ igEdgeP trans a b := by
  unfold buildIG
  rw [buildIG_outer_mem]
  constructor
  · rintro (h | ⟨i, hi, j, hj, h1, h2, ⟨rfl, rfl⟩ | ⟨rfl, rfl⟩⟩)
    · exact Or.inl h
    · exact Or.inr (Or.inl ⟨h1, List.mem_range.mp hj, h2⟩)
    · exact Or.inr (Or.inr ⟨h1, List.mem_range.mp hj, h2⟩)
  · rintro (h | ⟨h1, h2, h3⟩ | ⟨h1, h2, h3⟩)
    · exact Or.inl h
    · exact Or.inr ⟨b, List.mem_range.mpr (by omega), a, List.mem_range.mpr h2,
        h1, h3, Or.inl ⟨rfl, rfl⟩⟩
    · exact Or.inr ⟨a, List.mem_range.mpr (by omega), b, List.mem_range.mpr h2,
        h1, h3, Or.inr ⟨rfl, rfl⟩⟩

/-- Interference-graph symmetry when the graph was built from scratch. -/
theorem igNbrs_symm (trans : List (String × String)) (a b : Nat)
    (h : a ∈ igNbrs (buildIG trans []) b) : b ∈ igNbrs (buildIG trans []) a := by
  rw [mem_igNbrs_buildIG] at h ⊢
  rcases h with h | h | h
  · simp [igNbrs] at h
  · exact Or.inr (Or.inr h)
  · exact Or.inr (Or.inl h)

/-- No self-loops in a graph built from scratch. -/
theorem igNbrs_irrefl (trans : List (String × String)) (a : Nat) :
    a ∉ igNbrs (buildIG trans []) a := by
  rw [mem_igNbrs_buildIG]
  rintro (h | ⟨h1, -, -⟩ | ⟨h1, -, -⟩)
  · simp [igNbrs] at h
  · omega
  · omega

/-- Neighbour indices of a from-scratch graph are in range. -/
theorem igNbrs_lt_length (trans : List (String × String)) (a b : Nat)
    (h : a ∈ igNbrs (buildIG trans []) b) :
    a < trans.length ∧ b < trans.length := by
  rw [mem_igNbrs_buildIG] at h
  rcases h with h | ⟨h1, h2, -⟩ | ⟨h1, h2, -⟩
  · simp [igNbrs] at h
  · omega
  · omega

theorem igNodes_nodup_igAddNbr (g : List (Nat × List Nat)) (i j : Nat)
    (h : (igNodes g).Nodup) : (igNodes (igAddNbr g i j)).Nodup := by
  rw [igNodes_igAddNbr]
  by_cases hm : i ∈ igNodes g
  · simpa [hm] using h
  · simp only [hm, if_neg, not_false_iff]
    simp [List.nodup_append, h, hm]

theorem igNodes_nodup_igAdd (g : List (Nat × List Nat)) (i j : Nat)
    (h : (igNodes g).Nodup) : (igNodes (igAdd g i j)).Nodup :=
  igNodes_nodup_igAddNbr _ _ _ (igNodes_nodup_igAddNbr _ _ _ h)

theorem igNodes_nodup_inner (trans : List (String × String)) (i : Nat)
    (l : List Nat) (g : List (Nat × List Nat)) (h : (igNodes g).Nodup) :
    (igNodes (l.foldl (fun g j =>
      if i < j then
        if interferesB (trans.getD i ("", "")) (trans.getD j ("", "")) then igAdd g i j
        else g
      else g) g)).Nodup := by
  induction l generalizing g with
  | nil => exact h
  | cons j l ih =>
    simp only [List.foldl_cons]
    apply ih
    by_cases hlt : i < j
    · by_cases hintf :
        interferesB (trans.getD i ("", "")) (trans.getD j ("", "")) = true
      · rw [if_pos hlt, if_pos hintf]
        exact igNodes_nodup_igAdd _ _ _ h
      · rw [if_pos hlt, if_neg (by simpa using hintf)]; exact h
    · rw [if_neg hlt]; exact h

theorem igNodes_nodup_outer (trans : List (String × String)) (li : List Nat) :
    ∀ (lo : List Nat) (g : List (Nat × List Nat)), (igNodes g).Nodup →
    (igNodes (lo.foldl (fun g i => li.foldl (fun g j =>
      if i < j then
        if interferesB (trans.getD i ("", "")) (trans.getD j ("", "")) then igAdd g i j
        else g
      else g) g) g)).Nodup := by
  intro lo
  induction lo with
  | nil => intro g h; exact h
  | cons i lo iho =>
    intro g h
    simp only [List.foldl_cons]
    exact iho _ (igNodes_nodup_inner trans i li g h)

theorem igNodes_nodup_buildIG (trans : List (String × String))
    (g0 : List (Nat × List Nat)) (h : (igNodes g0).Nodup) :
    (igNodes (buildIG trans g0)).Nodup :=
  igNodes_nodup_outer trans (List.range trans.length) (List.range trans.length) g0 h

/-! ## Lemmas about the color assignment -/

theorem lookupC_mem {colors : List (Nat × Nat)} {i c : Nat}
    (h : lookupC colors i = some c) : (i, c) ∈ colors := by
  unfold lookupC at h
  cases hf : colors.find? (fun p => p.1 == i) with
  | none => rw [hf] at h; exact absurd h (by simp)
  | some p =>
    rw [hf] at h
    have hp : p ∈ colors := List.mem_of_find?_eq_some hf
    have hkey : p.1 = i := by simpa using List.find?_some hf
    have hval : p.2 = c := by simpa using h
    have : p = (i, c) := by cases p; simp_all
    exact this ▸ hp

theorem lookupC_of_mem {colors : List (Nat × Nat)}
    (hnd : (colors.map (fun p => p.1)).Nodup) {i c : Nat}
    (h : (i, c) ∈ colors) : lookupC colors i = some c := by
  induction colors with
  | nil => simp at h
  | cons e rest ih =>
    simp only [List.map_cons, List.nodup_cons] at hnd
    rcases List.mem_cons.mp h with rfl | hmem
    · simp [lookupC, List.find?]
    · have hne : e.1 ≠ i := by
        intro he
        exact hnd.1 (he ▸ List.mem_map.mpr ⟨(i, c), hmem, rfl⟩)
      simp only [lookupC, List.find?]
      rw [show (e.1 == i) = false by simpa using hne]
      exact ih hnd.2 hmem

theorem lookupC_isSome_of_key {colors : List (Nat × Nat)} {i : Nat}
    (h : i ∈ colors.map (fun p => p.1)) : ∃ c, lookupC colors i = some c := by
  induction colors with
  | nil => simp at h
  | cons e rest ih =>
    by_cases he : e.1 = i
    · refine ⟨e.2, ?_⟩
      simp [lookupC, List.find?, he]
    · simp only [List.map_cons, List.mem_cons] at h
      rcases h with h | h
      · exact absurd h.symm he
      · simp only [lookupC, List.find?]
        rw [show (e.1 == i) = false by simpa using he]
        exact ih h

theorem mem_usedColors {g : List (Nat × List Nat)} {colors : List (Nat × Nat)}
    {node c : Nat} :
    c ∈ usedColors g colors node ↔
      ∃ nb ∈ igNbrs g node, lookupC colors nb = some c := List.mem_filterMap

theorem sortIns_perm (g : List (Nat × List Nat)) (x : Nat) (l : List Nat) :
    List.Perm (sortIns g x l) (x :: l) := by
  induction l with
  | nil => exact List.Perm.refl _
  | cons y ys ih =>
    by_cases h : degIG g y ≤ degIG g x
    · simp [sortIns, h]
    · simp only [sortIns, h, if_neg, not_false_iff]
      exact (ih.cons y).trans (List.Perm.swap x y ys)

theorem sortedNodes_perm (g : List (Nat × List Nat)) :
    List.Perm (sortedNodes g) (igNodes g) := by
  unfold sortedNodes
  generalize igNodes g = l
  induction l with
  | nil => exact List.Perm.refl _
  | cons x l ih =>
    exact (sortIns_perm g x _).trans (ih.cons x)

theorem colorGraph_keys (g : List (Nat × List Nat)) :
    ∀ (l : List Nat) (colors : List (Nat × Nat)),
      (l.foldl (fun colors node =>
          colors ++ [(node, pickColor (usedColors g colors node))]) colors).map
        (fun p => p.1) = colors.map (fun p => p.1) ++ l := by
  intro l
  induction l with
  | nil => intro colors; simp
  | cons node l ih =>
    intro colors
    simp only [List.foldl_cons]
    rw [ih]
    simp

/-- Every color below an assigned color is itself assigned (the greedy
choice takes the smallest free color). -/
theorem colorFold_cover (g : List (Nat × List Nat)) :
    ∀ (l : List Nat) (colors : List (Nat × Nat)),
      (∀ e ∈ colors, ∀ c < e.2, ∃ e2 ∈ colors, e2.2 = c) →
      ∀ e ∈ (l.foldl (fun colors node =>
          colors ++ [(node, pickColor (usedColors g colors node))]) colors),
        ∀ c < e.2, ∃ e2 ∈ (l.foldl (fun colors node =>
          colors ++ [(node, pickColor (usedColors g colors node))]) colors),
          e2.2 = c := by
  intro l
  induction l with
  | nil => intro colors h; exact h
  | cons node l ih =>
    intro colors h
    simp only [List.foldl_cons]
    apply ih
    intro e he c hc
    rcases List.mem_append.mp he with he | he
    · rcases h e he c hc with ⟨e2, he2, hc2⟩
      exact ⟨e2, List.mem_append_left _ he2, hc2⟩
    · have : e = (node, pickColor (usedColors g colors node)) := by simpa using he
      subst this
      have hcu : c ∈ usedColors g colors node := pickColor_min _ c hc
      rcases mem_usedColors.mp hcu with ⟨nb, -, hl⟩
      exact ⟨(nb, c), List.mem_append_left _ (lookupC_mem hl), rfl⟩

theorem colorGraph_cover (g : List (Nat × List Nat)) :
    ∀ e ∈ colorGraph g, ∀ c < e.2, ∃ e2 ∈ colorGraph g, e2.2 = c :=
  colorFold_cover g (sortedNodes g) [] (by simp)

theorem le_foldl_max (l : List Nat) (a : Nat) : a ≤ l.foldl max a := by
  induction l generalizing a with
  | nil => exact Nat.le_refl a
  | cons x l ih => exact le_trans (Nat.le_max_left a x) (ih (max a x))

theorem mem_le_foldl_max (l : List Nat) (a : Nat) :
    ∀ x ∈ l, x ≤ l.foldl max a := by
  induction l generalizing a with
  | nil => intro x hx; simp at hx
  | cons y l ih =>
    intro x hx
    rcases List.mem_cons.mp hx with rfl | hx
    · exact le_trans (Nat.le_max_right a x) (le_foldl_max l _)
    · exact ih (max a y) x hx

theorem foldl_max_mem (l : List Nat) (a : Nat) :
    l.foldl max a ∈ l ∨ l.foldl max a = a := by
  induction l generalizing a with
  | nil => exact Or.inr rfl
  | cons x l ih =>
    rcases ih (max a x) with h | h
    · exact Or.inl (List.mem_cons_of_mem x h)
    · rcases max_choice a x with hm | hm
      · exact Or.inr (by rw [List.foldl_cons, h, hm])
      · exact Or.inl (by rw [List.foldl_cons, h, hm]; exact List.mem_cons_self x l)

/-- Unfolding `generate_schedule` on a successful run. -/
theorem generate_schedule_eq {s : NetworkScheduler}
    {r : List (List (String × String)) × NetworkScheduler}
    (h : generate_schedule s = some r) :
    ∃ ttf, calcForwardingD s.topo = some ttf ∧
      r.2 = { s with
        shortestPath := shortestPathsD s.topo
        totalTransmissions := ttf
        interferenceGraph := buildIG (buildTransD s.topo ttf) s.interferenceGraph
        transmissions := buildTransD s.topo ttf } ∧
      r.1 = (List.range (maxSlotNat (colorGraph
          (buildIG (buildTransD s.topo ttf) s.interferenceGraph)))).map (fun slot =>
        ((colorGraph (buildIG (buildTransD s.topo ttf) s.interferenceGraph)).filter
            (fun p => p.2 == slot)).map
          (fun p => (buildTransD s.topo ttf).getD p.1 ("", ""))) := by
  unfold generate_schedule at h
  cases hc : calcForwardingD s.topo with
  | none => rw [hc] at h; exact absurd h (by simp)
  | some ttf =>
    rw [hc] at h
    simp only [Option.some.injEq] at h
    exact ⟨ttf, rfl, congrArg Prod.snd h.symm, congrArg Prod.fst h.symm⟩

/-- C8: every slot of a returned schedule is non-empty: the greedy
coloring uses every color from `0` to the maximum assigned color, and
the schedule has exactly one slot per such color. -/
theorem c8_no_empty_slot (s : NetworkScheduler)
    (r : List (List (String × String)) × NetworkScheduler)
    (h : generate_schedule s = some r) : ∀ sl ∈ r.1, sl ≠ [] := by
  obtain ⟨ttf, -, -, hr1⟩ := generate_schedule_eq h
  intro sl hsl
  rw [hr1] at hsl
  rcases List.mem_map.mp hsl with ⟨slot, hslot, rfl⟩
  have hslot' := List.mem_range.mp hslot
  set colors := colorGraph (buildIG (buildTransD s.topo ttf) s.interferenceGraph) with hcolors
  have hcne : colors ≠ [] := by
    intro hnil
    rw [maxSlotNat, hnil] at hslot'
    simp at hslot'
  have hvne : colors.map (fun p => p.2) ≠ [] := by
    simpa using hcne
  have hslotle : slot ≤ (colors.map (fun p => p.2)).foldl max 0 := by
    rw [maxSlotNat, if_neg (by simpa using hcne)] at hslot'
    omega
  have hmax : ∃ e ∈ colors, ∀ e2 ∈ colors, e2.2 ≤ e.2 := by
    rcases foldl_max_mem (colors.map (fun p => p.2)) 0 with hm | hm
    · rcases List.mem_map.mp hm with ⟨e, he, hev⟩
      exact ⟨e, he, fun e2 he2 => by
        rw [hev]
        exact mem_le_foldl_max _ 0 _ (List.mem_map.mpr ⟨e2, he2, rfl⟩)⟩
    · rcases List.exists_mem_of_ne_nil colors hcne with ⟨e, he⟩
      refine ⟨e, he, fun e2 he2 => ?_⟩
      have := mem_le_foldl_max (colors.map (fun p => p.2)) 0 e2.2
        (List.mem_map.mpr ⟨e2, he2, rfl⟩)
      omega
  rcases hmax with ⟨emax, hemax, hub⟩
  have hslotle2 : slot ≤ emax.2 := by
    have := mem_le_foldl_max (colors.map (fun p => p.2)) 0 emax.2
      (List.mem_map.mpr ⟨emax, hemax, rfl⟩)
    -- slot ≤ foldl max and the max value is attained at emax
    rcases foldl_max_mem (colors.map (fun p => p.2)) 0 with hm | hm
    · rcases List.mem_map.mp hm with ⟨e, he, hev⟩
      have := hub e he
      omega
    · rw [hm] at hslotle
      omega
  have : ∃ e2 ∈ colors, e2.2 = slot := by
    rcases Nat.eq_or_lt_of_le hslotle2 with heq | hlt
    · exact ⟨emax, hemax, heq.symm⟩
    · exact colorGraph_cover _ emax hemax slot hlt
  rcases this with ⟨e2, he2, hv2⟩
  intro hnil
  have : e2 ∈ colors.filter (fun p => p.2 == slot) :=
    List.mem_filter.mpr ⟨he2, by simpa using hv2⟩
  have : (buildTransD s.topo ttf).getD e2.1 ("", "") ∈
      (colors.filter (fun p => p.2 == slot)).map
        (fun p => (buildTransD s.topo ttf).getD p.1 ("", "")) :=
    List.mem_map.mpr ⟨e2, this, rfl⟩
  rw [hnil] at this
  simp at this

/-- The chain `A→B→C` with a single packet at `A`, used as concrete
witness topology. -/
def chainABC : NetworkScheduler :=
  addPath (addPath (add_device (add_device (add_device initScheduler
    "A" 1) "B" 0) "C" 0) "A" "B") "B" "C"

/-- Witness for C8 on the chain `A→B→C`: the empty slot does not occur. -/
theorem c8_witness :
    [] ∉ ((generate_schedule chainABC).get (by rfl)).1 :=
  fun hmem =>
    c8_no_empty_slot chainABC ((generate_schedule chainABC).get (by rfl))
      (Option.some_get (by rfl)).symm [] hmem rfl

/-- The greedy coloring never gives interfering nodes the same color:
invariant over the coloring fold. -/
theorem colorFold_valid (g : List (Nat × List Nat))
    (hsym : ∀ a b, a ∈ igNbrs g b → b ∈ igNbrs g a)
    (hirr : ∀ a, a ∉ igNbrs g a) :
    ∀ (l : List Nat) (colors : List (Nat × Nat)),
      (colors.map (fun p => p.1) ++ l).Nodup →
      (∀ e1 ∈ colors, ∀ e2 ∈ colors, e2.1 ∈ igNbrs g e1.1 → e1.2 ≠ e2.2) →
      ∀ e1 ∈ (l.foldl (fun colors node =>
          colors ++ [(node, pickColor (usedColors g colors node))]) colors),
        ∀ e2 ∈ (l.foldl (fun colors node =>
          colors ++ [(node, pickColor (usedColors g colors node))]) colors),
        e2.1 ∈ igNbrs g e1.1 → e1.2 ≠ e2.2 := by
  intro l
  induction l with
  | nil => intro colors _ h; exact h
  | cons node l ih =>
    intro colors hnd h
    simp only [List.foldl_cons]
    have hndc : (colors.map (fun p => p.1)).Nodup := (List.nodup_append.mp hnd).1
    have hnode : node ∉ colors.map (fun p => p.1) := by
      intro hmem
      rcases List.nodup_append.mp hnd with ⟨-, -, hdisj⟩
      exact hdisj hmem (List.mem_cons_self node l)
    apply ih
    · rw [List.map_append]
      simp only [List.map_cons, List.map_nil]
      have : colors.map (fun p => p.1) ++ [node] ++ l =
          colors.map (fun p => p.1) ++ (node :: l) := by simp
      rw [this]
      exact hnd
    · intro e1 he1 e2 he2 hadj
      rcases List.mem_append.mp he1 with he1 | he1 <;>
        rcases List.mem_append.mp he2 with he2 | he2
      · exact h e1 he1 e2 he2 hadj
      · -- e2 is the new entry
        have he2' : e2 = (node, pickColor (usedColors g colors node)) := by
          simpa using he2
        subst he2'
        have : e1.1 ∈ igNbrs g node := hsym _ _ hadj
        have hused : e1.2 ∈ usedColors g colors node :=
          mem_usedColors.mpr ⟨e1.1, this, lookupC_of_mem hndc (by
            rw [show ((e1.1, e1.2) : Nat × Nat) = e1 by cases e1; rfl]
            exact he1)⟩
        intro hcc
        exact pickColor_not_mem _ (hcc ▸ hused)
      · -- e1 is the new entry
        have he1' : e1 = (node, pickColor (usedColors g colors node)) := by
          simpa using he1
        subst he1'
        have hused : e2.2 ∈ usedColors g colors node :=
          mem_usedColors.mpr ⟨e2.1, hadj, lookupC_of_mem hndc (by
            rw [show ((e2.1, e2.2) : Nat × Nat) = e2 by cases e2; rfl]
            exact he2)⟩
        intro hcc
        exact pickColor_not_mem _ (hcc ▸ hused)
      · -- both new: contradiction with irreflexivity
        have he1' : e1 = (node, pickColor (usedColors g colors node)) := by
          simpa using he1
        have he2' : e2 = (node, pickColor (usedColors g colors node)) := by
          simpa using he2
        rw [he1', he2'] at hadj
        exact absurd hadj (hirr node)

theorem colorGraph_valid (g : List (Nat × List Nat))
    (hsym : ∀ a b, a ∈ igNbrs g b → b ∈ igNbrs g a)
    (hirr : ∀ a, a ∉ igNbrs g a) (hnd : (igNodes g).Nodup) :
    ∀ e1 ∈ colorGraph g, ∀ e2 ∈ colorGraph g,
      e2.1 ∈ igNbrs g e1.1 → e1.2 ≠ e2.2 :=
  colorFold_valid g hsym hirr (sortedNodes g) []
    (by simpa using ((sortedNodes_perm g).nodup_iff).mpr hnd)
    (by simp)

/-- The keys of the finished coloring are exactly the graph keys. -/
theorem colorGraph_keys_eq (g : List (Nat × List Nat)) :
    (colorGraph g).map (fun p => p.1) = sortedNodes g := by
  unfold colorGraph
  rw [colorGraph_keys g (sortedNodes g) []]
  simp

/-- C3: for every interference edge of the graph the scheduler built, the
greedy coloring assigns the two instances different slots, and each
instance's transmission pair appears in its own slot list of the returned
schedule. -/
theorem c3_coloring_valid (s : NetworkScheduler)
    (hig : s.interferenceGraph = [])
    (r : List (List (String × String)) × NetworkScheduler)
    (h : generate_schedule s = some r) :
    ∀ i j, j ∈ igNbrs r.2.interferenceGraph i →
      ∃ ci cj, lookupC (colorGraph r.2.interferenceGraph) i = some ci ∧
        lookupC (colorGraph r.2.interferenceGraph) j = some cj ∧ ci ≠ cj ∧
        ∃ li lj, r.1[ci]? = some li ∧ r.1[cj]? = some lj ∧
          r.2.transmissions.getD i ("", "") ∈ li ∧
          r.2.transmissions.getD j ("", "") ∈ lj := by
  obtain ⟨ttf, -, hr2, hr1⟩ := generate_schedule_eq h
  rw [hig] at hr2 hr1
  have hg2 : r.2.interferenceGraph =
      buildIG (buildTransD s.topo ttf) [] := by rw [hr2]
  have ht2 : r.2.transmissions = buildTransD s.topo ttf := by rw [hr2]
  set trans := buildTransD s.topo ttf with htrans
  set g := buildIG trans [] with hgdef
  intro i j hadj
  rw [hg2] at hadj
  have hsym := igNbrs_symm trans
  have hirr := igNbrs_irrefl trans
  have hnd : (igNodes g).Nodup := igNodes_nodup_buildIG trans [] (by simp [igNodes])
  have hkeyi : i ∈ igNodes g := by
    by_contra hk
    rw [igNbrs_not_key hk] at hadj
    simp at hadj
  have hkeyj : j ∈ igNodes g := by
    have := hsym _ _ hadj
    by_contra hk
    rw [igNbrs_not_key hk] at this
    simp at this
  have hkeysi : i ∈ (colorGraph g).map (fun p => p.1) := by
    rw [colorGraph_keys_eq]
    exact ((sortedNodes_perm g).mem_iff).mpr hkeyi
  have hkeysj : j ∈ (colorGraph g).map (fun p => p.1) := by
    rw [colorGraph_keys_eq]
    exact ((sortedNodes_perm g).mem_iff).mpr hkeyj
  rcases lookupC_isSome_of_key hkeysi with ⟨ci, hci⟩
  rcases lookupC_isSome_of_key hkeysj with ⟨cj, hcj⟩
  have hmemi : (i, ci) ∈ colorGraph g := lookupC_mem hci
  have hmemj : (j, cj) ∈ colorGraph g := lookupC_mem hcj
  have hne : ci ≠ cj :=
    colorGraph_valid g hsym hirr hnd (i, ci) hmemi (j, cj) hmemj hadj
  -- schedule indexing
  have hslot : ∀ {n c : Nat}, (n, c) ∈ colorGraph g →
      ∃ sl, r.1[c]? = some sl ∧ trans.getD n ("", "") ∈ sl := by
    intro n c hmem
    have hcle : c ≤ ((colorGraph g).map (fun p => p.2)).foldl max 0 :=
      mem_le_foldl_max _ 0 c (List.mem_map.mpr ⟨(n, c), hmem, rfl⟩)
    have hcne : colorGraph g ≠ [] := List.ne_nil_of_mem hmem
    have hclt : c < maxSlotNat (colorGraph g) := by
      rw [maxSlotNat, if_neg (by simpa using hcne)]
      omega
    refine ⟨((colorGraph g).filter (fun p => p.2 == c)).map
      (fun p => trans.getD p.1 ("", "")), ?_, ?_⟩
    · rw [hr1]
      rw [List.getElem?_map]
      rw [show (List.range (maxSlotNat (colorGraph g)))[c]? = some c by
        simp [hclt]]
      rfl
    · exact List.mem_map.mpr ⟨(n, c),
        List.mem_filter.mpr ⟨hmem, by simp⟩, rfl⟩
  rcases hslot hmemi with ⟨li, hli, hmi⟩
  rcases hslot hmemj with ⟨lj, hlj, hmj⟩
  rw [hg2]
  exact ⟨ci, cj, hci, hcj, hne, li, lj, hli, hlj, ht2 ▸ hmi, ht2 ▸ hmj⟩

/-- Witness for C3 on the chain `A→B→C`: instances `0 = (A,B)` and
`1 = (B,C)` interfere. -/
theorem c3_witness :
    ∃ ci cj,
      lookupC (colorGraph ((generate_schedule chainABC).get (by rfl)).2.interferenceGraph)
        0 = some ci ∧
      lookupC (colorGraph ((generate_schedule chainABC).get (by rfl)).2.interferenceGraph)
        1 = some cj ∧ ci ≠ cj ∧
      ∃ li lj, ((generate_schedule chainABC).get (by rfl)).1[ci]? = some li ∧
        ((generate_schedule chainABC).get (by rfl)).1[cj]? = some lj ∧
        ((generate_schedule chainABC).get (by rfl)).2.transmissions.getD 0 ("", "") ∈ li ∧
        ((generate_schedule chainABC).get (by rfl)).2.transmissions.getD 1 ("", "") ∈ lj :=
  c3_coloring_valid chainABC rfl ((generate_schedule chainABC).get (by rfl))
    (Option.some_get (by rfl)).symm 0 1 (by decide)

/-! ## Lemmas about the Floyd–Warshall relaxation -/

theorem fwUpd_other (k i j : String) (d : String → String → Nat) (x y : String)
    (h : ¬(x = i ∧ y = j)) : fwUpd k i j d x y = d x y := by
  simp [fwUpd, updD, h]

theorem fwUpd_col (k i j : String) (d : String → String → Nat) (x : String) :
    fwUpd k i j d x k = d x k := by
  unfold fwUpd updD
  by_cases h : x = i ∧ k = j
  · rcases h with ⟨rfl, rfl⟩
    simp [Nat.min_eq_left (Nat.le_add_right _ _)]
  · simp [h]

theorem fwUpd_row (k i j : String) (d : String → String → Nat) (y : String) :
    fwUpd k i j d k y = d k y := by
  unfold fwUpd updD
  by_cases h : k = i ∧ y = j
  · rcases h with ⟨rfl, rfl⟩
    simp [Nat.min_eq_left (Nat.le_add_left _ _)]
  · simp [h]

theorem fwRow_col (k i : String) (js : List String) (d : String → String → Nat)
    (x : String) : fwRow k i js d x k = d x k := by
  induction js generalizing d with
  | nil => rfl
  | cons j js ih => rw [fwRow, List.foldl_cons, ← fwRow, ih, fwUpd_col]

theorem fwRow_row (k i : String) (js : List String) (d : String → String → Nat)
    (y : String) : fwRow k i js d k y = d k y := by
  induction js generalizing d with
  | nil => rfl
  | cons j js ih => rw [fwRow, List.foldl_cons, ← fwRow, ih, fwUpd_row]

theorem fwRow_ne_row (k i : String) (js : List String) (d : String → String → Nat)
    (x y : String) (h : x ≠ i) : fwRow k i js d x y = d x y := by
  induction js generalizing d with
  | nil => rfl
  | cons j js ih =>
    rw [fwRow, List.foldl_cons, ← fwRow, ih, fwUpd_other _ _ _ _ _ _ (by tauto)]

theorem fwRow_not_mem (k i : String) (js : List String) (d : String → String → Nat)
    (x y : String) (h : y ∉ js) : fwRow k i js d x y = d x y := by
  induction js generalizing d with
  | nil => rfl
  | cons j js ih =>
    rw [fwRow, List.foldl_cons, ← fwRow,
      ih _ (fun hm => h (List.mem_cons_of_mem j hm)),
      fwUpd_other _ _ _ _ _ _ (by
        rintro ⟨-, rfl⟩
        exact h (List.mem_cons_self _ _))]

theorem fwRow_eval (k i : String) (js : List String) (d : String → String → Nat)
    (j0 : String) (hnd : js.Nodup) (hm : j0 ∈ js) :
    fwRow k i js d i j0 = min (d i j0) (d i k + d k j0) := by
  induction js generalizing d with
  | nil => simp at hm
  | cons j js ih =>
    rw [fwRow, List.foldl_cons, ← fwRow]
    rcases List.mem_cons.mp hm with rfl | hm'
    · rw [fwRow_not_mem _ _ _ _ _ _ ((List.nodup_cons.mp hnd).1)]
      simp [fwUpd, updD]
    · rw [ih _ (List.nodup_cons.mp hnd).2 hm', fwUpd_col, fwUpd_row,
        fwUpd_other _ _ _ _ _ _ (by
          rintro ⟨-, rfl⟩
          exact (List.nodup_cons.mp hnd).1 hm')]

theorem fwStep_col (k : String) (is js : List String) (d : String → String → Nat)
    (x : String) : fwStep k is js d x k = d x k := by
  induction is generalizing d with
  | nil => rfl
  | cons i is ih => rw [fwStep, List.foldl_cons, ← fwStep, ih, fwRow_col]

theorem fwStep_row (k : String) (is js : List String) (d : String → String → Nat)
    (y : String) : fwStep k is js d k y = d k y := by
  induction is generalizing d with
  | nil => rfl
  | cons i is ih => rw [fwStep, List.foldl_cons, ← fwStep, ih, fwRow_row]

theorem fwStep_not_mem (k : String) (is js : List String)
    (d : String → String → Nat) (x y : String) (h : x ∉ is) :
    fwStep k is js d x y = d x y := by
  induction is generalizing d with
  | nil => rfl
  | cons i is ih =>
    rw [fwStep, List.foldl_cons, ← fwStep,
      ih _ (fun hm => h (List.mem_cons_of_mem i hm)),
      fwRow_ne_row _ _ _ _ _ _ (by
        intro hxi
        exact h (hxi ▸ List.mem_cons_self _ _))]

theorem fwStep_not_mem_col (k : String) (is js : List String)
    (d : String → String → Nat) (x y : String) (h : y ∉ js) :
    fwStep k is js d x y = d x y := by
  induction is generalizing d with
  | nil => rfl
  | cons i is ih =>
    rw [fwStep, List.foldl_cons, ← fwStep, ih, fwRow_not_mem _ _ _ _ _ _ h]

theorem fwStep_eval (k : String) (is js : List String)
    (d : String → String → Nat) (i0 j0 : String) (hndi : is.Nodup)
    (hndj : js.Nodup) (hmi : i0 ∈ is) (hmj : j0 ∈ js) :
    fwStep k is js d i0 j0 = min (d i0 j0) (d i0 k + d k j0) := by
  induction is generalizing d with
  | nil => simp at hmi
  | cons i is ih =>
    rw [fwStep, List.foldl_cons, ← fwStep]
    rcases List.mem_cons.mp hmi with rfl | hmi'
    · rw [fwStep_not_mem _ _ _ _ _ _ ((List.nodup_cons.mp hndi).1)]
      exact fwRow_eval _ _ _ _ _ hndj hmj
    · rw [ih _ (List.nodup_cons.mp hndi).2 hmi',
        fwRow_ne_row _ _ _ _ _ _ (by
          intro hxi
          exact (List.nodup_cons.mp hndi).1 (hxi ▸ hmi')),
        fwRow_col, fwRow_row]

theorem undirAdj_symm (t : Topo) (i j : String) :
    undirAdj t i j ↔ undirAdj t j i := by
  unfold undirAdj
  tauto

theorem spInitD_symm (t : Topo) (x y : String) :
    spInitD t x y = spInitD t y x := by
  by_cases ha : undirAdj t x y
  · have hb := (undirAdj_symm t x y).mp ha
    simp [spInitD, ha, hb]
  · have hb : ¬ undirAdj t y x := fun hb => ha ((undirAdj_symm t x y).mpr hb)
    by_cases hd : x = y
    · subst hd
      rfl
    · have hd' : ¬ y = x := fun hh => hd hh.symm
      by_cases hx : x ∈ t.devices <;> by_cases hy : y ∈ t.devices <;>
        simp [spInitD, ha, hb, hd, hd', hx, hy]

theorem fwStep_symm (k : String) (devs : List String)
    (d : String → String → Nat) (hnd : devs.Nodup)
    (hsym : ∀ x y, d x y = d y x) (x y : String) :
    fwStep k devs devs d x y = fwStep k devs devs d y x := by
  by_cases hx : x ∈ devs <;> by_cases hy : y ∈ devs
  · rw [fwStep_eval k devs devs d x y hnd hnd hx hy,
      fwStep_eval k devs devs d y x hnd hnd hy hx,
      hsym x y, hsym x k, hsym k y]
    rw [Nat.add_comm]
  · rw [fwStep_not_mem_col k devs devs d x y hy,
      fwStep_not_mem k devs devs d y x hy, hsym x y]
  · rw [fwStep_not_mem k devs devs d x y hx,
      fwStep_not_mem_col k devs devs d y x hx, hsym x y]
  · rw [fwStep_not_mem k devs devs d x y hx,
      fwStep_not_mem k devs devs d y x hy, hsym x y]

theorem shortestPathsD_symm (t : Topo) (hnd : t.devices.Nodup) (x y : String) :
    shortestPathsD t x y = shortestPathsD t y x := by
  unfold shortestPathsD
  have : ∀ (l : List String) (d : String → String → Nat),
      (∀ x y, d x y = d y x) →
      ∀ x y, (l.foldl (fun d k => fwStep k t.devices t.devices d) d) x y =
        (l.foldl (fun d k => fwStep k t.devices t.devices d) d) y x := by
    intro l
    induction l with
    | nil => intro d h x y; exact h x y
    | cons k l ih =>
      intro d h x y
      simp only [List.foldl_cons]
      exact ih _ (fwStep_symm k t.devices d hnd h) x y
  exact this t.devices (spInitD t) (spInitD_symm t) x y

/-! ## C4: channel separation in `optimize_schedule` -/

/-- `packChannel` only joins an instance to a channel after checking it
against every member already present, so the cross-endpoint check holds
pairwise along the channel (later member as first argument). -/
theorem packChannel_pairwise (d : String → String → Nat) :
    ∀ (ys added cs : List (String × String)),
      added.Pairwise (fun a b => 3 ≤ checkSP d b a) →
      (packChannel d added cs ys).1.Pairwise (fun a b => 3 ≤ checkSP d b a) := by
  intro ys
  induction ys with
  | nil => intro added cs h; exact h
  | cons y ys ih =>
    intro added cs h
    unfold packChannel
    by_cases hall : added.all (fun k => decide (3 ≤ checkSP d y k)) = true
    · rw [if_pos hall]
      apply ih
      rw [List.pairwise_append]
      refine ⟨h, List.pairwise_singleton _ _, ?_⟩
      intro a ha b hb
      have hb' : b = y := by simpa using hb
      subst hb'
      have := List.all_eq_true.mp hall a ha
      simpa using this
    · rw [if_neg hall]
      exact ih added cs h

theorem packSlot_pairwise (d : String → String → Nat) :
    ∀ (xs cs : List (String × String)) (chans : List (List (String × String))),
      (∀ ch ∈ chans, ch.Pairwise (fun a b => 3 ≤ checkSP d b a)) →
      ∀ ch ∈ packSlot d cs chans xs,
        ch.Pairwise (fun a b => 3 ≤ checkSP d b a) := by
  intro xs
  induction xs with
  | nil => intro cs chans h; exact h
  | cons x rest ih =>
    intro cs chans h
    unfold packSlot
    by_cases hx : x ∈ cs
    · rw [if_pos hx]
      exact ih cs chans h
    · rw [if_neg hx]
      apply ih
      intro ch hch
      rcases List.mem_append.mp hch with hch | hch
      · exact h ch hch
      · have : ch = (packChannel d [x] (cs ++ [x]) rest).1 := by simpa using hch
        subst this
        exact packChannel_pairwise d rest [x] (cs ++ [x])
          (List.pairwise_singleton _ _)

/-- C4: in every channel produced by `optimize_schedule` on a generated
schedule, every two distinct instances are separated: the minimum of the
two cross-endpoint hop distances (first instance's sender to second's
receiver, first instance's receiver to second's sender) is at least `3`
in the stored distance table. -/
theorem c4_channel_separation (s : NetworkScheduler) (hnd : s.devices.Nodup)
    (r : List (List (String × String)) × NetworkScheduler)
    (h : generate_schedule s = some r) :
    ∀ slotChs ∈ optimize_schedule r.2 r.1, ∀ ch ∈ slotChs,
      ∀ (p q : Fin ch.length), p ≠ q →
        3 ≤ min (r.2.shortestPath (ch.get p).1 (ch.get q).2)
              (r.2.shortestPath (ch.get p).2 (ch.get q).1) := by
  obtain ⟨ttf, -, hr2, -⟩ := generate_schedule_eq h
  have hsp : r.2.shortestPath = shortestPathsD s.topo := by rw [hr2]
  have hsymm : ∀ x y, r.2.shortestPath x y = r.2.shortestPath y x := by
    rw [hsp]
    exact shortestPathsD_symm s.topo hnd
  intro slotChs hsl ch hch p q hpq
  have hpw : ch.Pairwise (fun a b => 3 ≤ checkSP r.2.shortestPath b a) := by
    rcases List.mem_map.mp hsl with ⟨slotT, -, rfl⟩
    exact packSlot_pairwise r.2.shortestPath slotT [] [] (by simp) ch hch
  have hget := List.pairwise_iff_get.mp hpw
  rcases Nat.lt_or_ge p.val q.val with hlt | hge
  · have := hget p q hlt
    unfold checkSP at this
    rw [hsymm (ch.get p).1 (ch.get q).2, hsymm (ch.get p).2 (ch.get q).1]
    rw [Nat.min_comm]
    exact this
  · have hqp : q < p := by
      rcases Nat.eq_or_lt_of_le hge with heq | hlt'
      · exact absurd (Fin.ext heq.symm) hpq
      · exact hlt'
    have := hget q p hqp
    unfold checkSP at this
    exact this

/-- Witness for C4 on the chain `A→B→C`: no packed channel holds two
instances whose cross-endpoint separation drops below `3`. -/
theorem c4_witness :
    ¬ ∃ slotChs ∈ optimize_schedule
          ((generate_schedule chainABC).get (by rfl)).2
          ((generate_schedule chainABC).get (by rfl)).1,
        ∃ ch ∈ slotChs, ∃ p q : Fin ch.length, p ≠ q ∧
          min (((generate_schedule chainABC).get (by rfl)).2.shortestPath
                (ch.get p).1 (ch.get q).2)
            (((generate_schedule chainABC).get (by rfl)).2.shortestPath
                (ch.get p).2 (ch.get q).1) < 3 := by
  rintro ⟨slotChs, hsl, ch, hch, p, q, hpq, hlt⟩
  exact absurd (c4_channel_separation chainABC (by decide)
    ((generate_schedule chainABC).get (by rfl)) (Option.some_get (by rfl)).symm
    slotChs hsl ch hch p q hpq) (Nat.not_le.mpr hlt)

/-! ## C10: unreachable pairs keep the finite sentinel `10^9` -/

theorem fwUpd_unreach (t : Topo) (k i j : String) (hk : k ∈ t.devices)
    (d : String → String → Nat)
    (hJ : ∀ x y, x ∈ t.devices → y ∈ t.devices → ¬ undirReach t x y →
      d x y = 1000000000) :
    ∀ x y, x ∈ t.devices → y ∈ t.devices → ¬ undirReach t x y →
      fwUpd k i j d x y = 1000000000 := by
  intro x y hx hy hr
  by_cases hpos : x = i ∧ y = j
  · rcases hpos with ⟨rfl, rfl⟩
    have h1 : d x y = 1000000000 := hJ x y hx hy hr
    have h2 : 1000000000 ≤ d x k + d k y := by
      by_cases hxk : undirReach t x k
      · have hky : ¬ undirReach t k y := fun hky => hr (hxk.trans hky)
        have := hJ k y hk hy hky
        omega
      · have := hJ x k hx hk hxk
        omega
    unfold fwUpd updD
    simp only [and_self, if_pos]
    omega
  · rw [fwUpd_other _ _ _ _ _ _ hpos]
    exact hJ x y hx hy hr

theorem fwRow_unreach (t : Topo) (k i : String) (hk : k ∈ t.devices) :
    ∀ (js : List String) (d : String → String → Nat),
      (∀ x y, x ∈ t.devices → y ∈ t.devices → ¬ undirReach t x y →
        d x y = 1000000000) →
      ∀ x y, x ∈ t.devices → y ∈ t.devices → ¬ undirReach t x y →
        fwRow k i js d x y = 1000000000 := by
  intro js
  induction js with
  | nil => intro d h; exact h
  | cons j js ih =>
    intro d h
    rw [fwRow]
    simp only [List.foldl_cons]
    exact ih (fwUpd k i j d) (fwUpd_unreach t k i j hk d h)

theorem fwStep_unreach (t : Topo) (k : String) (hk : k ∈ t.devices)
    (js : List String) :
    ∀ (is : List String) (d : String → String → Nat),
      (∀ x y, x ∈ t.devices → y ∈ t.devices → ¬ undirReach t x y →
        d x y = 1000000000) →
      ∀ x y, x ∈ t.devices → y ∈ t.devices → ¬ undirReach t x y →
        fwStep k is js d x y = 1000000000 := by
  intro is
  induction is with
  | nil => intro d h; exact h
  | cons i is ih =>
    intro d h
    rw [fwStep]
    simp only [List.foldl_cons]
    exact ih (fwRow k i js d) (fwRow_unreach t k i hk js d h)

theorem spInitD_unreach (t : Topo) :
    ∀ x y, x ∈ t.devices → y ∈ t.devices → ¬ undirReach t x y →
      spInitD t x y = 1000000000 := by
  intro x y hx hy hr
  unfold spInitD
  rw [if_neg (fun ha => hr (Relation.ReflTransGen.single ha)),
    if_neg (by
      rintro ⟨rfl, -⟩
      exact hr Relation.ReflTransGen.refl),
    if_pos ⟨hx, hy⟩]

/-- Devices mutually unreachable in the undirected closure end with the
finite sentinel distance `10^9` in the computed table. -/
theorem shortestPathsD_unreach (t : Topo) :
    ∀ x y, x ∈ t.devices → y ∈ t.devices → ¬ undirReach t x y →
      shortestPathsD t x y = 1000000000 := by
  unfold shortestPathsD
  have main : ∀ (l : List String), (∀ k ∈ l, k ∈ t.devices) →
      ∀ (d : String → String → Nat),
      (∀ x y, x ∈ t.devices → y ∈ t.devices → ¬ undirReach t x y →
        d x y = 1000000000) →
      ∀ x y, x ∈ t.devices → y ∈ t.devices → ¬ undirReach t x y →
        (l.foldl (fun d k => fwStep k t.devices t.devices d) d) x y =
          1000000000 := by
    intro l
    induction l with
    | nil => intro _ d h; exact h
    | cons k l ih =>
      intro hsub d h
      simp only [List.foldl_cons]
      exact ih (fun k' hk' => hsub k' (List.mem_cons_of_mem k hk'))
        (fwStep k t.devices t.devices d)
        (fwStep_unreach t k (hsub k (List.mem_cons_self k l)) t.devices
          t.devices d h)
  exact main t.devices (fun _ hk => hk) (spInitD t) (spInitD_unreach t)

/-- Instances of the expanded transmission list have registered endpoints. -/
theorem buildTransD_endpoints (t : Topo) (hw : WFt t)
    (ttf : String → String → Nat) (e : String × String)
    (h : e ∈ buildTransD t ttf) : e.1 ∈ t.devices ∧ e.2 ∈ t.devices := by
  unfold buildTransD at h
  rcases List.mem_flatten.mp h with ⟨inner, hinner, hmem⟩
  rcases List.mem_map.mp hinner with ⟨sender, hsender, rfl⟩
  rcases List.mem_flatten.mp hmem with ⟨rep, hrep, hmem2⟩
  rcases List.mem_map.mp hrep with ⟨receiver, hreceiver, rfl⟩
  have : e = (sender, receiver) := List.eq_of_mem_replicate hmem2
  subst this
  exact ⟨hsender, hw.recvMem _ (mem_conns.mp hreceiver) ⟩

theorem vals_ne_nil_igAddNbr (g : List (Nat × List Nat)) (i j : Nat)
    (h : ∀ p ∈ g, p.2 ≠ []) : ∀ p ∈ igAddNbr g i j, p.2 ≠ [] := by
  induction g with
  | nil =>
    intro p hp
    have : p = (i, [j]) := by simpa [igAddNbr] using hp
    simp [this]
  | cons e rest ih =>
    intro p hp
    rcases e with ⟨k, ns⟩
    by_cases hk : k = i
    · simp only [igAddNbr, hk, if_pos] at hp
      rcases List.mem_cons.mp hp with rfl | hp
      · by_cases hj : j ∈ ns
        · simpa [hj] using h (k, ns) (by simp [hk])
        · simp [hj]
      · exact h p (List.mem_cons_of_mem _ hp)
    · simp only [igAddNbr, hk, if_neg, not_false_iff] at hp
      rcases List.mem_cons.mp hp with rfl | hp
      · exact h (k, ns) (List.mem_cons_self _ _)
      · exact ih (fun p hp => h p (List.mem_cons_of_mem _ hp)) p hp

theorem vals_ne_nil_igAdd (g : List (Nat × List Nat)) (i j : Nat)
    (h : ∀ p ∈ g, p.2 ≠ []) : ∀ p ∈ igAdd g i j, p.2 ≠ [] :=
  vals_ne_nil_igAddNbr _ _ _ (vals_ne_nil_igAddNbr _ _ _ h)

theorem vals_ne_nil_inner (trans : List (String × String)) (i : Nat)
    (l : List Nat) (g : List (Nat × List Nat)) (h : ∀ p ∈ g, p.2 ≠ []) :
    ∀ p ∈ (l.foldl (fun g j =>
      if i < j then
        if interferesB (trans.getD i ("", "")) (trans.getD j ("", "")) then igAdd g i j
        else g
      else g) g), p.2 ≠ [] := by
  induction l generalizing g with
  | nil => exact h
  | cons j l ih =>
    simp only [List.foldl_cons]
    apply ih
    by_cases hlt : i < j
    · by_cases hintf :
        interferesB (trans.getD i ("", "")) (trans.getD j ("", "")) = true
      · rw [if_pos hlt, if_pos hintf]
        exact vals_ne_nil_igAdd _ _ _ h
      · rw [if_pos hlt, if_neg (by simpa using hintf)]; exact h
    · rw [if_neg hlt]; exact h

theorem vals_ne_nil_buildIG (trans : List (String × String)) :
    ∀ p ∈ buildIG trans [], p.2 ≠ [] := by
  unfold buildIG
  have main : ∀ (lo : List Nat) (g : List (Nat × List Nat)),
      (∀ p ∈ g, p.2 ≠ []) →
      ∀ p ∈ (lo.foldl (fun g i => (List.range trans.length).foldl (fun g j =>
        if i < j then
          if interferesB (trans.getD i ("", "")) (trans.getD j ("", "")) then igAdd g i j
          else g
        else g) g) g), p.2 ≠ [] := by
    intro lo
    induction lo with
    | nil => intro g h; exact h
    | cons i lo iho =>
      intro g h
      simp only [List.foldl_cons]
      exact iho _ (vals_ne_nil_inner trans i _ g h)
  exact main _ [] (by simp)

/-- Every key of a from-scratch interference graph indexes a real
transmission. -/
theorem igNodes_buildIG_lt (trans : List (String × String)) (b : Nat)
    (h : b ∈ igNodes (buildIG trans [])) : b < trans.length := by
  rcases List.mem_map.mp h with ⟨p, hp, hpb⟩
  cases hf : (buildIG trans []).find? (fun q => q.1 == b) with
  | none =>
    exfalso
    have := List.find?_eq_none.mp hf p hp
    simp [hpb] at this
  | some q =>
    have hq2 := vals_ne_nil_buildIG trans q (List.mem_of_find?_eq_some hf)
    rcases List.exists_mem_of_ne_nil q.2 hq2 with ⟨a, ha⟩
    have hmem : a ∈ igNbrs (buildIG trans []) b := by
      unfold igNbrs
      rw [hf]
      exact ha
    exact (igNbrs_lt_length trans a b hmem).2

/-- Every transmission pair appearing in a slot of a from-scratch
generated schedule is one of the expanded transmission instances. -/
theorem sched_mem_trans (s : NetworkScheduler) (hig : s.interferenceGraph = [])
    (r : List (List (String × String)) × NetworkScheduler)
    (h : generate_schedule s = some r) :
    ∃ ttf, calcForwardingD s.topo = some ttf ∧
      ∀ sl ∈ r.1, ∀ x ∈ sl, x ∈ buildTransD s.topo ttf := by
  obtain ⟨ttf, hc, -, hr1⟩ := generate_schedule_eq h
  rw [hig] at hr1
  refine ⟨ttf, hc, ?_⟩
  intro sl hsl x hx
  rw [hr1] at hsl
  rcases List.mem_map.mp hsl with ⟨slot, -, rfl⟩
  rcases List.mem_map.mp hx with ⟨p, hp, rfl⟩
  have hpc : p ∈ colorGraph (buildIG (buildTransD s.topo ttf) []) :=
    (List.mem_filter.mp hp).1
  have hkey : p.1 ∈ igNodes (buildIG (buildTransD s.topo ttf) []) := by
    have : p.1 ∈ (colorGraph (buildIG (buildTransD s.topo ttf) [])).map
        (fun q => q.1) := List.mem_map.mpr ⟨p, hpc, rfl⟩
    rw [colorGraph_keys_eq] at this
    exact ((sortedNodes_perm _).mem_iff).mp this
  have hlt : p.1 < (buildTransD s.topo ttf).length :=
    igNodes_buildIG_lt _ _ hkey
  rw [List.getD_eq_getElem?_getD, List.getElem?_eq_getElem hlt]
  exact List.getElem_mem _

/-- C10: unreachable device pairs carry the finite sentinel `10^9`, and
two same-slot instances with mutually unreachable cross endpoints always
pass the `≥ 3` channel-compatibility check (so they may share a channel). -/
theorem c10_sentinel_unreachable (s : NetworkScheduler) (hw : WFt s.topo)
    (hig : s.interferenceGraph = [])
    (r : List (List (String × String)) × NetworkScheduler)
    (h : generate_schedule s = some r) :
    (∀ u v, u ∈ s.devices → v ∈ s.devices → ¬ undirReach s.topo u v →
      r.2.shortestPath u v = 1000000000) ∧
    (∀ sl ∈ r.1, ∀ t1 ∈ sl, ∀ t2 ∈ sl,
      ¬ undirReach s.topo t1.1 t2.2 → ¬ undirReach s.topo t1.2 t2.1 →
      3 ≤ checkSP r.2.shortestPath t1 t2) := by
  obtain ⟨ttf0, -, hr2, -⟩ := generate_schedule_eq h
  have hsp : r.2.shortestPath = shortestPathsD s.topo := by rw [hr2]
  have part1 : ∀ u v, u ∈ s.devices → v ∈ s.devices →
      ¬ undirReach s.topo u v → r.2.shortestPath u v = 1000000000 := by
    intro u v hu hv hr
    rw [hsp]
    exact shortestPathsD_unreach s.topo u v hu hv hr
  refine ⟨part1, ?_⟩
  obtain ⟨ttf, -, hmem⟩ := sched_mem_trans s hig r h
  intro sl hsl t1 ht1 t2 ht2 hra hrb
  have he1 := buildTransD_endpoints s.topo hw ttf t1 (hmem sl hsl t1 ht1)
  have he2 := buildTransD_endpoints s.topo hw ttf t2 (hmem sl hsl t2 ht2)
  unfold checkSP
  rw [part1 t1.1 t2.2 he1.1 he2.2 hra, part1 t1.2 t2.1 he1.2 he2.1 hrb]
  simp

/-- Two disconnected islands `A→B` and `C→D`, for the C10 witness. -/
def twoIsland : NetworkScheduler :=
  addPath (addPath (add_device (add_device (add_device (add_device
    initScheduler "A" 1) "B" 1) "C" 1) "D" 1) "A" "B") "C" "D"

theorem twoIsland_adj (x y : String) (h : undirAdj twoIsland.topo x y) :
    (x = "A" ∧ y = "B") ∨ (x = "B" ∧ y = "A") ∨
    (x = "C" ∧ y = "D") ∨ (x = "D" ∧ y = "C") := by
  have hc : twoIsland.topo.connections = [("A", "B"), ("C", "D")] := rfl
  rcases h with ⟨hm, -⟩ | ⟨hm, -⟩
  · rw [hc] at hm
    rcases List.mem_cons.mp hm with hm | hm
    · exact Or.inl ⟨congrArg Prod.fst hm, congrArg Prod.snd hm⟩
    · have : (x, y) = ("C", "D") := by simpa using hm
      exact Or.inr (Or.inr (Or.inl
        ⟨congrArg Prod.fst this, congrArg Prod.snd this⟩))
  · rw [hc] at hm
    rcases List.mem_cons.mp hm with hm | hm
    · exact Or.inr (Or.inl ⟨congrArg Prod.snd hm, congrArg Prod.fst hm⟩)
    · have : (y, x) = ("C", "D") := by simpa using hm
      exact Or.inr (Or.inr (Or.inr
        ⟨congrArg Prod.snd this, congrArg Prod.fst this⟩))

theorem twoIsland_reachAB (y : String)
    (h : undirReach twoIsland.topo "A" y) : y = "A" ∨ y = "B" := by
  induction h with
  | refl => exact Or.inl rfl
  | tail hab hbc ih =>
    rcases twoIsland_adj _ _ hbc with ⟨h1, h2⟩ | ⟨h1, h2⟩ | ⟨h1, h2⟩ | ⟨h1, h2⟩ <;>
      rcases ih with rfl | rfl <;> simp_all

theorem twoIsland_not_reach : ¬ undirReach twoIsland.topo "A" "D" := by
  intro h
  rcases twoIsland_reachAB "D" h with h' | h' <;> exact absurd h' (by decide)

/-- Witness for C10: in the two-island topology the computed distance
from `A` to the unreachable `D` is exactly the sentinel `10^9`. -/
theorem c10_witness :
    ((generate_schedule twoIsland).get (by rfl)).2.shortestPath "A" "D" =
      1000000000 :=
  (c10_sentinel_unreachable twoIsland ⟨by decide, by decide, by decide, by decide⟩
    rfl ((generate_schedule twoIsland).get (by rfl))
    (Option.some_get (by rfl)).symm).1 "A" "D" (by decide) (by decide)
    twoIsland_not_reach

/-! ## Lemmas about one Kahn step -/

theorem length_filter_not_mem {α : Type} [DecidableEq α] (l : List α) (a : α)
    (h : a ∉ l) : (l.filter (fun x => decide (x = a))).length = 0 := by
  induction l with
  | nil => rfl
  | cons x l ih =>
    have hx : x ≠ a := fun hh => h (hh ▸ List.mem_cons_self x l)
    rw [List.filter_cons]
    simp only [hx, decide_False, if_neg, Bool.false_eq_true, not_false_iff]
    exact ih (fun hm => h (List.mem_cons_of_mem x hm))

theorem length_filter_nodup {α : Type} [DecidableEq α] (l : List α)
    (hnd : l.Nodup) (a : α) :
    (l.filter (fun x => decide (x = a))).length = if a ∈ l then 1 else 0 := by
  induction l with
  | nil => rfl
  | cons x l ih =>
    rw [List.filter_cons]
    by_cases hx : x = a
    · subst hx
      have hnx : x ∉ l := (List.nodup_cons.mp hnd).1
      simp [length_filter_not_mem l x hnx]
    · have := ih (List.nodup_cons.mp hnd).2
      by_cases hm : a ∈ l <;> simp [hx, hm, this, Ne.symm hx]

theorem length_filter_or {α : Type} (l : List α) (p q : α → Bool)
    (h : ∀ x ∈ l, ¬(p x = true ∧ q x = true)) :
    (l.filter (fun x => p x || q x)).length =
      (l.filter p).length + (l.filter q).length := by
  induction l with
  | nil => rfl
  | cons x l ih =>
    have ih' := ih (fun y hy => h y (List.mem_cons_of_mem x hy))
    have hx := h x (List.mem_cons_self x l)
    rw [List.filter_cons, List.filter_cons, List.filter_cons]
    cases hp : p x <;> cases hq : q x <;> simp_all <;> omega

theorem sum_map_add_c {α : Type} [DecidableEq α] (c : Nat) :
    ∀ (l : List α), l.Nodup → ∀ (f g : α → Nat) (e0 : α), e0 ∈ l →
      f e0 = g e0 + c → (∀ e ∈ l, e ≠ e0 → f e = g e) →
      (l.map f).sum = (l.map g).sum + c := by
  intro l
  induction l with
  | nil => intro _ f g e0 h; simp at h
  | cons x l ih =>
    intro hnd f g e0 he0 hd hother
    rcases List.mem_cons.mp he0 with rfl | he0'
    · have hx : e0 ∉ l := (List.nodup_cons.mp hnd).1
      have : l.map f = l.map g :=
        List.map_congr_left (fun e he => hother e (List.mem_cons_of_mem _ he)
          (fun hh => hx (hh ▸ he)))
      simp only [List.map_cons, List.sum_cons, this, hd]
      omega
    · have hxne : x ≠ e0 := by
        intro hh
        exact ((List.nodup_cons.mp hnd).1) (hh ▸ he0')
      have := ih (List.nodup_cons.mp hnd).2 f g e0 he0' hd
        (fun e he hne => hother e (List.mem_cons_of_mem _ he) hne)
      simp only [List.map_cons, List.sum_cons, this,
        hother x (List.mem_cons_self x l) hxne]
      omega

theorem conns_nodup (t : Topo) (h : t.connections.Nodup) (u : String) :
    (conns t u).Nodup := by
  unfold conns
  refine List.Nodup.map_on ?_ (h.filter _)
  intro e1 he1 e2 he2 heq
  have h1 : e1.1 = u := by simpa using (List.mem_filter.mp he1).2
  have h2 : e2.1 = u := by simpa using (List.mem_filter.mp he2).2
  cases e1; cases e2; simp_all

theorem foldNbrs_char (cp : Nat) (current : String) :
    ∀ (ns : List String) (mid : KahnState), ns.Nodup →
      ((ns.foldl (processNeighbor cp current) mid).processed = mid.processed ∧
       (ns.foldl (processNeighbor cp current) mid).queue =
         mid.queue ++ ns.filter (fun nb => decide (mid.indeg nb - 1 = 0)) ∧
       (∀ v, (ns.foldl (processNeighbor cp current) mid).indeg v =
         if v ∈ ns then mid.indeg v - 1 else mid.indeg v) ∧
       (∀ v, (ns.foldl (processNeighbor cp current) mid).totalPackets v =
         if v ∈ ns then mid.totalPackets v + cp else mid.totalPackets v) ∧
       (∀ u v, (ns.foldl (processNeighbor cp current) mid).tt u v =
         if u = current ∧ v ∈ ns then mid.tt u v + cp else mid.tt u v)) := by
  intro ns
  induction ns with
  | nil =>
    intro mid _
    refine ⟨rfl, by simp, ?_, ?_, ?_⟩ <;> intros <;> simp
  | cons nb ns ih =>
    intro mid hnd
    have hnb : nb ∉ ns := (List.nodup_cons.mp hnd).1
    obtain ⟨ihp, ihq, ihi, iht, ihtt⟩ :=
      ih (processNeighbor cp current mid nb) (List.nodup_cons.mp hnd).2
    have hi' : ∀ v, v ≠ nb →
        (processNeighbor cp current mid nb).indeg v = mid.indeg v := by
      intro v hv
      show upd1 mid.indeg nb (mid.indeg nb - 1) v = mid.indeg v
      exact upd1_other _ _ _ _ hv
    have hinb : (processNeighbor cp current mid nb).indeg nb =
        mid.indeg nb - 1 := by
      show upd1 mid.indeg nb (mid.indeg nb - 1) nb = mid.indeg nb - 1
      exact upd1_same _ _ _
    have ht' : ∀ v, v ≠ nb →
        (processNeighbor cp current mid nb).totalPackets v =
          mid.totalPackets v := by
      intro v hv
      show upd1 mid.totalPackets nb (mid.totalPackets nb + cp) v =
        mid.totalPackets v
      exact upd1_other _ _ _ _ hv
    have htnb : (processNeighbor cp current mid nb).totalPackets nb =
        mid.totalPackets nb + cp := by
      show upd1 mid.totalPackets nb (mid.totalPackets nb + cp) nb =
        mid.totalPackets nb + cp
      exact upd1_same _ _ _
    have htt' : ∀ u v, ¬(u = current ∧ v = nb) →
        (processNeighbor cp current mid nb).tt u v = mid.tt u v := by
      intro u v huv
      show upd2 mid.tt current nb (mid.tt current nb + cp) u v = mid.tt u v
      rw [upd2_get]
      exact if_neg huv
    have httnb : (processNeighbor cp current mid nb).tt current nb =
        mid.tt current nb + cp := by
      show upd2 mid.tt current nb (mid.tt current nb + cp) current nb =
        mid.tt current nb + cp
      rw [upd2_get]
      exact if_pos ⟨rfl, rfl⟩
    simp only [List.foldl_cons]
    refine ⟨by rw [ihp]; rfl, ?_, ?_, ?_, ?_⟩
    · rw [ihq]
      have hq' : (processNeighbor cp current mid nb).queue =
          mid.queue ++ (if mid.indeg nb - 1 = 0 then [nb] else []) := by
        unfold processNeighbor
        by_cases h : mid.indeg nb - 1 = 0 <;> simp [h]
      rw [hq',
        List.filter_congr (fun v hv => by
          rw [hi' v (fun hh => hnb (hh ▸ hv))]),
        List.append_assoc]
      congr 1
      rw [List.filter_cons]
      by_cases h : mid.indeg nb - 1 = 0 <;> simp [h]
    · intro v
      rw [ihi v]
      by_cases hv : v = nb
      · subst hv
        rw [if_neg hnb, if_pos (List.mem_cons_self v ns), hinb]
      · rw [hi' v hv]
        by_cases hm : v ∈ ns <;> simp [hm, hv]
    · intro v
      rw [iht v]
      by_cases hv : v = nb
      · subst hv
        rw [if_neg hnb, if_pos (List.mem_cons_self v ns), htnb]
      · rw [ht' v hv]
        by_cases hm : v ∈ ns <;> simp [hm, hv]
    · intro u v
      rw [ihtt u v]
      by_cases huv : u = current ∧ v = nb
      · rcases huv with ⟨rfl, rfl⟩
        rw [if_neg (by
            rintro ⟨-, hm⟩
            exact hnb hm), httnb,
          if_pos ⟨rfl, List.mem_cons_self v ns⟩]
      · rw [htt' u v huv]
        by_cases hc : u = current ∧ v ∈ ns
        · rw [if_pos hc, if_pos ⟨hc.1, List.mem_cons_of_mem nb hc.2⟩]
        · rw [if_neg hc, if_neg (by
            rintro ⟨rfl, hm⟩
            rcases List.mem_cons.mp hm with rfl | hm
            · exact huv ⟨rfl, rfl⟩
            · exact hc ⟨rfl, hm⟩)]

/-- Pointwise characterization of one dequeue-and-process iteration. -/
theorem kahnStep_char (t : Topo) (st : KahnState) (current : String)
    (rest : List String) (hq : st.queue = current :: rest)
    (hnd : (conns t current).Nodup) :
    (kahnStep t st).processed = st.processed ++ [current] ∧
    (kahnStep t st).queue = rest ++ (conns t current).filter
      (fun nb => decide (st.indeg nb - 1 = 0)) ∧
    (∀ v, (kahnStep t st).indeg v =
      if v ∈ conns t current then st.indeg v - 1 else st.indeg v) ∧
    (∀ v, (kahnStep t st).totalPackets v =
      if v ∈ conns t current then st.totalPackets v + st.totalPackets current
      else st.totalPackets v) ∧
    (∀ u v, (kahnStep t st).tt u v =
      if u = current ∧ v ∈ conns t current then
        st.tt u v + st.totalPackets current
      else st.tt u v) := by
  have : kahnStep t st =
      (conns t current).foldl (processNeighbor (st.totalPackets current) current)
        { st with queue := rest, processed := st.processed ++ [current] } := by
    unfold kahnStep
    rw [hq]
  rw [this]
  obtain ⟨hp, hqc, hi, ht, htt⟩ := foldNbrs_char (st.totalPackets current) current
    (conns t current)
    { st with queue := rest, processed := st.processed ++ [current] } hnd
  exact ⟨hp, hqc, hi, ht, htt⟩

/-! ## The Kahn loop invariant -/

/-- Invariant of the `while queue:` loop.  `processed` is the ghost list
of dequeued devices, in order. -/
structure KInv (t : Topo) (st : KahnState) : Prop where
  nodupQP : (st.queue ++ st.processed).Nodup
  qpDev : ∀ v ∈ st.queue ++ st.processed, v ∈ t.devices
  qpChar : ∀ v ∈ t.devices, (v ∈ st.queue ∨ v ∈ st.processed) ↔
    (∀ e ∈ t.connections, e.2 = v → e.1 ∈ st.processed)
  indegEq : ∀ v, st.indeg v = ((inEdges t v).length : Int) -
    (((inEdges t v).filter (fun e => decide (e.1 ∈ st.processed))).length : Int)
  ttZero : ∀ u v, (u ∉ st.processed ∨ (u, v) ∉ t.connections) → st.tt u v = 0
  ttEq : ∀ u ∈ st.processed, ∀ v, (u, v) ∈ t.connections →
    st.tt u v = getEntry t.orig u 0 + recvSum t st.tt u
  tpEq : ∀ v ∈ t.devices, st.totalPackets v =
    getEntry t.orig v 0 + recvSum t st.tt v
  orderIdx : ∀ e ∈ t.connections, e.2 ∈ st.processed →
    e.1 ∈ st.processed ∧
      st.processed.indexOf e.1 < st.processed.indexOf e.2

theorem length_filter_neg {α : Type} (l : List α) (p : α → Bool) :
    (l.filter p).length + (l.filter (fun a => !(p a))).length = l.length := by
  induction l with
  | nil => rfl
  | cons x l ih =>
    rw [List.filter_cons, List.filter_cons]
    cases hp : p x <;> simp [hp] <;> omega

theorem eq_singleton_of_all_eq {α : Type} (l : List α) (x : α) (hx : x ∈ l)
    (hall : ∀ y ∈ l, y = x) (hnd : l.Nodup) : l = [x] := by
  cases l with
  | nil => simp at hx
  | cons y l =>
    have hy : y = x := hall y (List.mem_cons_self y l)
    subst hy
    have : l = [] := by
      cases l with
      | nil => rfl
      | cons z l =>
        have hz : z = y := hall z (List.mem_cons_of_mem y (List.mem_cons_self z l))
        subst hz
        exact absurd (List.mem_cons_self z l) (List.nodup_cons.mp hnd).1
    rw [this]

theorem kahnInit_inv (t : Topo) (hw : WFt t) : KInv t (kahnInit t) := by
  have hinit_q : (kahnInit t).queue =
      t.devices.filter (fun d => decide (indeg0 t d = 0)) := rfl
  have hinit_p : (kahnInit t).processed = [] := rfl
  refine ⟨?_, ?_, ?_, ?_, ?_, ?_, ?_, ?_⟩
  · rw [hinit_q, hinit_p, List.append_nil]
    exact hw.devNodup.filter _
  · intro v hv
    rw [hinit_q, hinit_p, List.append_nil] at hv
    exact (List.mem_filter.mp hv).1
  · intro v hv
    rw [hinit_q, hinit_p]
    constructor
    · rintro (hm | hm)
      · intro e he hev
        exfalso
        have h0 : indeg0 t v = 0 := by simpa using (List.mem_filter.mp hm).2
        have : e ∈ t.connections.filter (fun e => decide (e.2 = v)) :=
          List.mem_filter.mpr ⟨he, by simpa using hev⟩
        have hlen : (t.connections.filter (fun e => decide (e.2 = v))).length = 0 := by
          unfold indeg0 at h0
          omega
        rw [List.length_eq_zero.mp hlen] at this
        simp at this
      · simp at hm
    · intro hall
      refine Or.inl (List.mem_filter.mpr ⟨hv, ?_⟩)
      have : t.connections.filter (fun e => decide (e.2 = v)) = [] := by
        rw [List.filter_eq_nil_iff]
        intro e he
        simp only [decide_eq_true_eq]
        intro hev
        have := hall e he hev
        simp at this
      simp [indeg0, this]
  · intro v
    have : (inEdges t v).filter (fun e => decide (e.1 ∈ (kahnInit t).processed)) = [] := by
      rw [List.filter_eq_nil_iff]
      intro e he
      rw [hinit_p]
      simp
    rw [this]
    simp [kahnInit, indeg0, inEdges]
  · intro u v _
    rfl
  · intro u hu
    rw [hinit_p] at hu
    simp at hu
  · intro v _
    show getEntry t.orig v 0 = getEntry t.orig v 0 + recvSum t (fun _ _ => 0) v
    have : recvSum t (fun _ _ => 0) v = 0 := by
      unfold recvSum
      simp
    omega
  · intro e _ he2
    rw [hinit_p] at he2
    simp at he2

theorem kahnStep_inv (t : Topo) (hw : WFt t) (st : KahnState) (hinv : KInv t st)
    (current : String) (rest : List String) (hq : st.queue = current :: rest) :
    KInv t (kahnStep t st) := by
  have hndC : (conns t current).Nodup := conns_nodup t hw.connNodup current
  obtain ⟨hp, hqc, hi, ht, htt⟩ := kahnStep_char t st current rest hq hndC
  have hcurq : current ∈ st.queue := hq ▸ List.mem_cons_self current rest
  have hcurdev : current ∈ t.devices :=
    hinv.qpDev current (List.mem_append_left _ hcurq)
  have hndq : st.queue.Nodup := (List.nodup_append.mp hinv.nodupQP).1
  have hndP : st.processed.Nodup := (List.nodup_append.mp hinv.nodupQP).2.1
  have hdisj : ∀ a ∈ st.queue, a ∉ st.processed :=
    fun a ha hb => (List.nodup_append.mp hinv.nodupQP).2.2 ha hb
  have hcurP : current ∉ st.processed := hdisj current hcurq
  have hcurrest : current ∉ rest := by
    rw [hq] at hndq
    exact (List.nodup_cons.mp hndq).1
  have hndrest : rest.Nodup := by
    rw [hq] at hndq
    exact (List.nodup_cons.mp hndq).2
  have hinnbrs : ∀ e ∈ t.connections, e.2 = current → e.1 ∈ st.processed :=
    (hinv.qpChar current hcurdev).mp (Or.inl hcurq)
  have hself : current ∉ conns t current := by
    intro hc
    exact hcurP (hinnbrs (current, current) (mem_conns.mp hc) rfl)
  have hCdev : ∀ v ∈ conns t current, v ∈ t.devices :=
    fun v hv => hw.recvMem _ (mem_conns.mp hv)
  have hinE_nodup : ∀ v, (inEdges t v).Nodup := fun v => hw.connNodup.filter _
  have hmemInE : ∀ v : String, (current, v) ∈ inEdges t v ↔ v ∈ conns t current := by
    intro v
    constructor
    · intro h
      exact mem_conns.mpr (List.mem_filter.mp h).1
    · intro h
      exact List.mem_filter.mpr ⟨mem_conns.mp h, by simp⟩
  have hfresh : ∀ nb ∈ (conns t current).filter
      (fun nb => decide (st.indeg nb - 1 = 0)),
      nb ∉ st.queue ∧ nb ∉ st.processed := by
    intro nb hnb
    have hnbC : nb ∈ conns t current := (List.mem_filter.mp hnb).1
    have hnb1 : st.indeg nb = 1 := by
      have := (List.mem_filter.mp hnb).2
      simp only [decide_eq_true_eq] at this
      omega
    by_contra hcon
    have hmem : nb ∈ st.queue ∨ nb ∈ st.processed := by tauto
    have hall := (hinv.qpChar nb (hCdev nb hnbC)).mp hmem
    have hfull : ((inEdges t nb).filter
        (fun e => decide (e.1 ∈ st.processed))).length = (inEdges t nb).length := by
      apply List.filter_length_eq_length.mpr
      intro e he
      simp only [decide_eq_true_eq]
      exact hall e (List.mem_filter.mp he).1
        (by simpa using (List.mem_filter.mp he).2)
    have := hinv.indegEq nb
    omega
  have hcnt : ∀ v, ((inEdges t v).filter
      (fun e => decide (e.1 ∈ st.processed ++ [current]))).length =
      ((inEdges t v).filter (fun e => decide (e.1 ∈ st.processed))).length +
        (if v ∈ conns t current then 1 else 0) := by
    intro v
    have h1 : (inEdges t v).filter
        (fun e => decide (e.1 ∈ st.processed ++ [current])) =
        (inEdges t v).filter
          (fun e => decide (e.1 ∈ st.processed) || decide (e.1 = current)) := by
      apply List.filter_congr
      intro e _
      by_cases h2 : e.1 ∈ st.processed
      · simp [h2, List.mem_append]
      · by_cases h3 : e.1 = current <;> simp [h2, h3, List.mem_append]
    rw [h1, length_filter_or _ _ _ (by
      intro e _ hcc
      rcases hcc with ⟨hc1, hc2⟩
      simp only [decide_eq_true_eq] at hc1 hc2
      exact hcurP (hc2 ▸ hc1))]
    congr 1
    have h2 : (inEdges t v).filter (fun e => decide (e.1 = current)) =
        (inEdges t v).filter (fun e => decide (e = (current, v))) := by
      apply List.filter_congr
      intro e he
      have hev : e.2 = v := by simpa using (List.mem_filter.mp he).2
      by_cases h3 : e.1 = current
      · have : e = (current, v) := by cases e; simp_all
        simp [h3, this]
      · have : e ≠ (current, v) := by
          intro hh
          exact h3 (by rw [hh])
        simp [h3, this]
    rw [h2, length_filter_nodup _ (hinE_nodup v) _]
    by_cases hm : v ∈ conns t current
    · rw [if_pos ((hmemInE v).mpr hm), if_pos hm]
    · rw [if_neg (fun hc => hm ((hmemInE v).mp hc)), if_neg hm]
  refine ⟨?_, ?_, ?_, ?_, ?_, ?_, ?_, ?_⟩
  · -- nodupQP
    rw [hp, hqc]
    rw [List.nodup_append]
    refine ⟨?_, ?_, ?_⟩
    · rw [List.nodup_append]
      refine ⟨hndrest, hndC.filter _, ?_⟩
      intro a ha hf
      exact (hfresh a hf).1 (hq ▸ List.mem_cons_of_mem current ha)
    · rw [List.nodup_append]
      exact ⟨hndP, List.nodup_singleton current, by
        intro a ha hc
        rw [List.mem_singleton] at hc
        exact hcurP (hc ▸ ha)⟩
    · intro a ha hb
      rcases List.mem_append.mp ha with ha | ha
      · have haq : a ∈ st.queue := hq ▸ List.mem_cons_of_mem current ha
        rcases List.mem_append.mp hb with hb | hb
        · exact hdisj a haq hb
        · rw [List.mem_singleton] at hb
          exact hcurrest (hb ▸ ha)
      · rcases List.mem_append.mp hb with hb | hb
        · exact (hfresh a ha).2 hb
        · rw [List.mem_singleton] at hb
          exact (hfresh a ha).1 (hb ▸ hcurq)
  · -- qpDev
    intro v hv
    rw [hp, hqc] at hv
    rcases List.mem_append.mp hv with hv | hv
    · rcases List.mem_append.mp hv with hv | hv
      · exact hinv.qpDev v (List.mem_append_left _
          (hq ▸ List.mem_cons_of_mem current hv))
      · exact hCdev v (List.mem_filter.mp hv).1
    · rcases List.mem_append.mp hv with hv | hv
      · exact hinv.qpDev v (List.mem_append_right _ hv)
      · rw [List.mem_singleton] at hv
        exact hv ▸ hcurdev
  · -- qpChar
    intro v hvdev
    rw [hp, hqc]
    constructor
    · rintro (hv | hv)
      · rcases List.mem_append.mp hv with hv | hv
        · -- v ∈ rest
          intro e he hev
          exact List.mem_append_left _
            (((hinv.qpChar v hvdev).mp
              (Or.inl (hq ▸ List.mem_cons_of_mem current hv))) e he hev)
        · -- v newly enqueued
          have hvC : v ∈ conns t current := (List.mem_filter.mp hv).1
          have hv1 : st.indeg v = 1 := by
            have := (List.mem_filter.mp hv).2
            simp only [decide_eq_true_eq] at this
            omega
          have hneg : ((inEdges t v).filter
              (fun e => !(decide (e.1 ∈ st.processed)))).length = 1 := by
            have hsum := length_filter_neg (inEdges t v)
              (fun e => decide (e.1 ∈ st.processed))
            have := hinv.indegEq v
            omega
          rcases List.length_eq_one.mp hneg with ⟨a, hae⟩
          have hca : (current, v) ∈ (inEdges t v).filter
              (fun e => !(decide (e.1 ∈ st.processed))) :=
            List.mem_filter.mpr ⟨(hmemInE v).mpr hvC, by simp [hcurP]⟩
          rw [hae, List.mem_singleton] at hca
          intro e he hev
          by_cases heP : e.1 ∈ st.processed
          · exact List.mem_append_left _ heP
          · have : e ∈ (inEdges t v).filter
                (fun e => !(decide (e.1 ∈ st.processed))) :=
              List.mem_filter.mpr ⟨List.mem_filter.mpr ⟨he, by simpa using hev⟩,
                by simp [heP]⟩
            rw [hae, List.mem_singleton] at this
            rw [this, ← hca]
            exact List.mem_append_right _ (List.mem_singleton.mpr rfl)
      · rcases List.mem_append.mp hv with hv | hv
        · -- v already processed
          intro e he hev
          exact List.mem_append_left _
            (((hinv.qpChar v hvdev).mp (Or.inr hv)) e he hev)
        · -- v = current
          rw [List.mem_singleton] at hv
          subst hv
          intro e he hev
          exact List.mem_append_left _ (hinnbrs e he hev)
    · intro hall
      by_cases hallP : ∀ e ∈ t.connections, e.2 = v → e.1 ∈ st.processed
      · rcases (hinv.qpChar v hvdev).mpr hallP with hv | hv
        · rw [hq] at hv
          rcases List.mem_cons.mp hv with rfl | hv
          · exact Or.inr (List.mem_append_right _ (List.mem_singleton.mpr rfl))
          · exact Or.inl (List.mem_append_left _ hv)
        · exact Or.inr (List.mem_append_left _ hv)
      · push_neg at hallP
        rcases hallP with ⟨e0, he0, he0v, he0P⟩
        have he0cur : e0.1 = current := by
          rcases List.mem_append.mp (hall e0 he0 he0v) with h | h
          · exact absurd h he0P
          · simpa using h
        have he0eq : e0 = (current, v) := by
          cases e0
          simp_all
        rw [he0eq] at he0
        have hvC : v ∈ conns t current := mem_conns.mpr he0
        have hnegeq : (inEdges t v).filter
            (fun e => !(decide (e.1 ∈ st.processed))) = [(current, v)] := by
          apply eq_singleton_of_all_eq
          · exact List.mem_filter.mpr ⟨(hmemInE v).mpr hvC, by simp [hcurP]⟩
          · intro y hy
            have hyE : y ∈ inEdges t v := (List.mem_filter.mp hy).1
            have hyP : y.1 ∉ st.processed := by
              have := (List.mem_filter.mp hy).2
              simpa using this
            have hyv : y.2 = v := by
              simpa using (List.mem_filter.mp hyE).2
            have hycur : y.1 = current := by
              rcases List.mem_append.mp
                  (hall y (List.mem_filter.mp hyE).1 hyv) with h | h
              · exact absurd h hyP
              · simpa using h
            cases y
            simp_all
          · exact (hinE_nodup v).filter _
        have hv1 : st.indeg v = 1 := by
          have hsum := length_filter_neg (inEdges t v)
            (fun e => decide (e.1 ∈ st.processed))
          have hlen1 : ((inEdges t v).filter
              (fun e => !(decide (e.1 ∈ st.processed)))).length = 1 := by
            rw [hnegeq]
            rfl
          have := hinv.indegEq v
          omega
        refine Or.inl (List.mem_append_right _ (List.mem_filter.mpr ⟨hvC, ?_⟩))
        simp [hv1]
  · -- indegEq
    intro v
    rw [hi v, hp, hcnt v, hinv.indegEq v]
    by_cases hm : v ∈ conns t current
    · rw [if_pos hm, if_pos hm]
      push_cast
      omega
    · rw [if_neg hm, if_neg hm]
      push_cast
      omega
  · -- ttZero
    intro u v hcond
    rw [htt u v, hp] at *
    by_cases hc : u = current ∧ v ∈ conns t current
    · exfalso
      rcases hcond with hcond | hcond
      · exact hcond (List.mem_append_right _
          (List.mem_singleton.mpr hc.1))
      · exact hcond (hc.1 ▸ mem_conns.mp hc.2)
    · rw [if_neg hc]
      apply hinv.ttZero
      rcases hcond with hcond | hcond
      · exact Or.inl (fun hm => hcond (List.mem_append_left _ hm))
      · exact Or.inr hcond
  · -- ttEq
    intro u hu v huv
    rw [hp] at hu
    have hrecv_congr : ∀ w, (∀ e ∈ inEdges t w,
        ¬(e.1 = current ∧ w ∈ conns t current)) →
        recvSum t (kahnStep t st).tt w = recvSum t st.tt w := by
      intro w hc
      unfold recvSum
      congr 1
      apply List.map_congr_left
      intro e he
      rw [htt e.1 w, if_neg (hc e he)]
    rcases List.mem_append.mp hu with hu | hu
    · -- u already processed
      have hune : u ≠ current := fun hh => hcurP (hh ▸ hu)
      have hnbP : ∀ e ∈ t.connections, e.2 = u → e.1 ∈ st.processed :=
        (hinv.qpChar u (hinv.qpDev u (List.mem_append_right _ hu))).mp (Or.inr hu)
      rw [htt u v, if_neg (by
        rintro ⟨rfl, -⟩
        exact hune rfl)]
      rw [hrecv_congr u (by
        rintro e he ⟨hec, -⟩
        have : e.1 ∈ st.processed :=
          hnbP e (List.mem_filter.mp he).1
            (by simpa using (List.mem_filter.mp he).2)
        exact hcurP (hec ▸ this))]
      exact hinv.ttEq u hu v huv
    · -- u = current
      rw [List.mem_singleton] at hu
      subst hu
      have hvC : v ∈ conns t u := mem_conns.mpr huv
      rw [htt u v, if_pos ⟨rfl, hvC⟩,
        hinv.ttZero u v (Or.inl hcurP),
        hrecv_congr u (by
          rintro e he ⟨-, hc⟩
          exact hself hc)]
      have := hinv.tpEq u hcurdev
      omega
  · -- tpEq
    intro v hvdev
    rw [ht v]
    by_cases hm : v ∈ conns t current
    · rw [if_pos hm]
      have hnew : recvSum t (kahnStep t st).tt v =
          recvSum t st.tt v + st.totalPackets current := by
        unfold recvSum
        apply sum_map_add_c (st.totalPackets current) (inEdges t v)
          (hinE_nodup v) _ _ (current, v) ((hmemInE v).mpr hm)
        · rw [htt current v, if_pos ⟨rfl, hm⟩]
        · intro e he hne
          rw [htt e.1 v, if_neg (by
            rintro ⟨hec, -⟩
            apply hne
            have hev : e.2 = v := by simpa using (List.mem_filter.mp he).2
            cases e
            simp_all)]
      rw [hnew, hinv.tpEq v hvdev]
      omega
    · rw [if_neg hm]
      have hsame : recvSum t (kahnStep t st).tt v = recvSum t st.tt v := by
        unfold recvSum
        congr 1
        apply List.map_congr_left
        intro e he
        rw [htt e.1 v, if_neg (by
          rintro ⟨-, hc⟩
          exact hm hc)]
      rw [hsame]
      exact hinv.tpEq v hvdev
  · -- orderIdx
    intro e he he2
    rw [hp] at he2 ⊢
    rcases List.mem_append.mp he2 with he2 | he2
    · obtain ⟨h1, h2⟩ := hinv.orderIdx e he he2
      refine ⟨List.mem_append_left _ h1, ?_⟩
      rw [List.indexOf_append_of_mem h1, List.indexOf_append_of_mem he2]
      exact h2
    · rw [List.mem_singleton] at he2
      have h1 : e.1 ∈ st.processed := hinnbrs e he he2
      refine ⟨List.mem_append_left _ h1, ?_⟩
      rw [List.indexOf_append_of_mem h1,
        he2, List.indexOf_append_of_not_mem hcurP]
      have := List.indexOf_lt_length.mpr h1
      simp
      omega

/-! ## Running the loop to completion -/

theorem kahnRun_inv (t : Topo) (hw : WFt t) :
    ∀ (n : Nat) (st : KahnState), KInv t st → KInv t (kahnRun t n st) := by
  intro n
  induction n with
  | zero => intro st h; exact h
  | succ n ih =>
    intro st h
    rw [kahnRun]
    by_cases hq : st.queue.isEmpty = true
    · rw [if_pos hq]; exact h
    · rw [if_neg hq]
      cases hqe : st.queue with
      | nil => rw [hqe] at hq; simp at hq
      | cons c rest => exact ih _ (kahnStep_inv t hw st h c rest hqe)

theorem kahnRun_processed (t : Topo) (hw : WFt t) :
    ∀ (n : Nat) (st : KahnState), (kahnRun t n st).queue = [] ∨
      (kahnRun t n st).processed.length = st.processed.length + n := by
  intro n
  induction n with
  | zero => intro st; exact Or.inr rfl
  | succ n ih =>
    intro st
    rw [kahnRun]
    by_cases hq : st.queue.isEmpty = true
    · rw [if_pos hq]
      exact Or.inl (List.isEmpty_iff.mp hq)
    · rw [if_neg hq]
      cases hqe : st.queue with
      | nil => rw [hqe] at hq; simp at hq
      | cons c rest =>
        rcases ih (kahnStep t st) with h | h
        · exact Or.inl h
        · refine Or.inr ?_
          rw [h, (kahnStep_char t st c rest hqe
            (conns_nodup t hw.connNodup c)).1]
          simp
          omega

theorem kahnRun_final_queue (t : Topo) (hw : WFt t) :
    (kahnRun t t.devices.length (kahnInit t)).queue = [] := by
  rcases kahnRun_processed t hw t.devices.length (kahnInit t) with h | h
  · exact h
  · have hinv := kahnRun_inv t hw t.devices.length (kahnInit t) (kahnInit_inv t hw)
    by_contra hne
    have hlen : (kahnRun t t.devices.length (kahnInit t)).processed.length =
        t.devices.length := by
      rw [h]
      simp [kahnInit]
    have hndP : (kahnRun t t.devices.length (kahnInit t)).processed.Nodup :=
      (List.nodup_append.mp hinv.nodupQP).2.1
    have hsub : ∀ v ∈ (kahnRun t t.devices.length (kahnInit t)).processed,
        v ∈ t.devices :=
      fun v hv => hinv.qpDev v (List.mem_append_right _ hv)
    have hperm : (kahnRun t t.devices.length (kahnInit t)).processed.Perm
        t.devices :=
      List.Subperm.perm_of_length_le (List.subperm_of_subset hndP hsub)
        (by omega)
    cases hqe : (kahnRun t t.devices.length (kahnInit t)).queue with
    | nil => exact hne hqe
    | cons q0 qs =>
      have hq0 : q0 ∈ (kahnRun t t.devices.length (kahnInit t)).queue :=
        hqe ▸ List.mem_cons_self q0 qs
      have hq0dev : q0 ∈ t.devices :=
        hinv.qpDev q0 (List.mem_append_left _ hq0)
      have hq0P : q0 ∈ (kahnRun t t.devices.length (kahnInit t)).processed :=
        hperm.mem_iff.mpr hq0dev
      exact (List.nodup_append.mp hinv.nodupQP).2.2 hq0 hq0P

theorem calc_none_iff (t : Topo) :
    calcForwardingD t = none ↔
      t.devices.any (fun v => decide
        (0 < (kahnRun t t.devices.length (kahnInit t)).indeg v)) = true := by
  unfold calcForwardingD
  by_cases h : t.devices.any (fun v => decide
      (0 < (kahnRun t t.devices.length (kahnInit t)).indeg v)) = true <;>
    simp [h]

theorem calc_some_eq (t : Topo) (ttf : String → String → Nat)
    (h : calcForwardingD t = some ttf) :
    ttf = (kahnRun t t.devices.length (kahnInit t)).tt ∧
      t.devices.any (fun v => decide
        (0 < (kahnRun t t.devices.length (kahnInit t)).indeg v)) = false := by
  unfold calcForwardingD at h
  by_cases hc : t.devices.any (fun v => decide
      (0 < (kahnRun t t.devices.length (kahnInit t)).indeg v)) = true
  · rw [if_pos hc] at h
    exact absurd h (by simp)
  · rw [if_neg hc] at h
    simp only [Option.some.injEq] at h
    exact ⟨h.symm, by simpa using hc⟩

theorem allProcessed_iff (t : Topo) (hw : WFt t) :
    t.devices.any (fun v => decide
        (0 < (kahnRun t t.devices.length (kahnInit t)).indeg v)) = false ↔
      ∀ v ∈ t.devices, v ∈ (kahnRun t t.devices.length (kahnInit t)).processed := by
  have hinv := kahnRun_inv t hw t.devices.length (kahnInit t) (kahnInit_inv t hw)
  have hqe := kahnRun_final_queue t hw
  rw [List.any_eq_false]
  constructor
  · intro hall v hv
    have hle : (kahnRun t t.devices.length (kahnInit t)).indeg v ≤ 0 := by
      have := hall v hv
      simp only [decide_eq_true_eq] at this
      omega
    have hcntle := List.length_filter_le
      (fun e => decide (e.1 ∈ (kahnRun t t.devices.length (kahnInit t)).processed))
      (inEdges t v)
    have hfull : ((inEdges t v).filter (fun e => decide
        (e.1 ∈ (kahnRun t t.devices.length (kahnInit t)).processed))).length =
        (inEdges t v).length := by
      have := hinv.indegEq v
      omega
    have hallP : ∀ e ∈ t.connections, e.2 = v →
        e.1 ∈ (kahnRun t t.devices.length (kahnInit t)).processed := by
      intro e he hev
      have hmem : e ∈ inEdges t v :=
        List.mem_filter.mpr ⟨he, by simpa using hev⟩
      have := List.filter_length_eq_length.mp hfull e hmem
      simpa using this
    rcases (hinv.qpChar v hv).mpr hallP with hq | hp
    · rw [hqe] at hq
      simp at hq
    · exact hp
  · intro hall v hv
    simp only [decide_eq_true_eq]
    have hfull : ((inEdges t v).filter (fun e => decide
        (e.1 ∈ (kahnRun t t.devices.length (kahnInit t)).processed))).length =
        (inEdges t v).length := by
      apply List.filter_length_eq_length.mpr
      intro e he
      simp only [decide_eq_true_eq]
      exact hall e.1 (hw.sendMem e (List.mem_filter.mp he).1)
    have := hinv.indegEq v
    omega

/-! ## C6: the per-link count is the sender's packet total -/

/-- C6: on success, the count recorded on every outgoing link `(u, v)`
equals `u`'s packet total: its own generation rate plus the sum of the
counts recorded on all of `u`'s incoming links. -/
theorem c6_flow_conservation (s : NetworkScheduler) (hw : WFt s.topo)
    (ttf : String → String → Nat) (h : calcForwardingD s.topo = some ttf) :
    ∀ u v, (u, v) ∈ s.connections →
      ttf u v = getEntry s.originalPackets u 0 + recvSum s.topo ttf u := by
  obtain ⟨httf, hany⟩ := calc_some_eq s.topo ttf h
  have hinv := kahnRun_inv s.topo hw s.topo.devices.length (kahnInit s.topo)
    (kahnInit_inv s.topo hw)
  have hall := (allProcessed_iff s.topo hw).mp hany
  intro u v huv
  have hudev : u ∈ s.topo.devices := hw.sendMem (u, v) huv
  have huP : u ∈ (kahnRun s.topo s.topo.devices.length
      (kahnInit s.topo)).processed := hall u hudev
  rw [httf]
  exact hinv.ttEq u huP v huv

/-- Witness for C6 on the chain `A→B→C` at link `(A, B)`. -/
theorem c6_witness :
    ((calcForwardingD chainABC.topo).get (by rfl)) "A" "B" =
      getEntry chainABC.originalPackets "A" 0 +
        recvSum chainABC.topo ((calcForwardingD chainABC.topo).get (by rfl)) "A" :=
  c6_flow_conservation chainABC ⟨by decide, by decide, by decide, by decide⟩
    ((calcForwardingD chainABC.topo).get (by rfl))
    (Option.some_get (by rfl)).symm "A" "B" (by decide)

/-! ## C5: the `ValueError` is raised exactly on cyclic topologies -/

theorem transGen_rank (t : Topo) (st : KahnState) (hinv : KInv t st) :
    ∀ a b, Relation.TransGen (edgeRel t) a b → b ∈ st.processed →
      a ∈ st.processed ∧
        st.processed.indexOf a < st.processed.indexOf b := by
  intro a b h
  induction h with
  | @single b he =>
    intro hb
    have h2 : a ∈ st.processed ∧
        st.processed.indexOf a < st.processed.indexOf b := by
      simpa using hinv.orderIdx (a, b) he hb
    exact h2
  | @tail b c _ he ih =>
    intro hc
    have h2 : b ∈ st.processed ∧
        st.processed.indexOf b < st.processed.indexOf c := by
      simpa using hinv.orderIdx (b, c) he hc
    obtain ⟨ha, hab⟩ := ih h2.1
    exact ⟨ha, by have := h2.2; omega⟩

theorem no_cycle_of_all_processed (t : Topo) (hw : WFt t)
    (hall : ∀ v ∈ t.devices, v ∈ (kahnRun t t.devices.length
      (kahnInit t)).processed) : ¬ hasCycle t := by
  rintro ⟨v, hv⟩
  have hinv := kahnRun_inv t hw t.devices.length (kahnInit t) (kahnInit_inv t hw)
  rcases Relation.TransGen.head'_iff.mp hv with ⟨c, hvc, -⟩
  have hvdev : v ∈ t.devices := hw.sendMem (v, c) hvc
  obtain ⟨-, hlt⟩ := transGen_rank t _ hinv v v hv (hall v hvdev)
  omega

theorem cycle_of_not_all_processed (t : Topo) (hw : WFt t)
    (hnot : ¬ ∀ v ∈ t.devices, v ∈ (kahnRun t t.devices.length
      (kahnInit t)).processed) : hasCycle t := by
  have hinv := kahnRun_inv t hw t.devices.length (kahnInit t) (kahnInit_inv t hw)
  have hqe := kahnRun_final_queue t hw
  push_neg at hnot
  rcases hnot with ⟨v0, hv0dev, hv0P⟩
  have key : ∀ x, x ∈ t.devices →
      x ∉ (kahnRun t t.devices.length (kahnInit t)).processed →
      ∃ u, (u, x) ∈ t.connections ∧ u ∈ t.devices ∧
        u ∉ (kahnRun t t.devices.length (kahnInit t)).processed := by
    intro x hxdev hxP
    have hnq : ¬(x ∈ (kahnRun t t.devices.length (kahnInit t)).queue ∨
        x ∈ (kahnRun t t.devices.length (kahnInit t)).processed) := by
      rw [hqe]
      simp only [List.not_mem_nil, false_or]
      exact hxP
    have := (hinv.qpChar x hxdev).mpr.mt hnq
    push_neg at this
    rcases this with ⟨e, he, hev, heP⟩
    refine ⟨e.1, ?_, hw.sendMem e he, heP⟩
    have : e = (e.1, x) := by
      cases e
      simp_all
    rw [← this]
    exact he
  let S := {x : String // x ∈ t.devices ∧
    x ∉ (kahnRun t t.devices.length (kahnInit t)).processed}
  have step : ∀ (x : S), ∃ (u : S), (u.1, x.1) ∈ t.connections := by
    rintro ⟨x, hx1, hx2⟩
    rcases key x hx1 hx2 with ⟨u, hu1, hu2, hu3⟩
    exact ⟨⟨u, hu2, hu3⟩, hu1⟩
  let g : Nat → S := fun n =>
    Nat.rec ⟨v0, hv0dev, hv0P⟩ (fun _ prev => Classical.choose (step prev)) n
  have gedge : ∀ n, ((g (n + 1)).1, (g n).1) ∈ t.connections := by
    intro n
    exact Classical.choose_spec (step (g n))
  have gchain : ∀ (d : Nat), 0 < d → ∀ (a : Nat),
      Relation.TransGen (edgeRel t) (g (a + d)).1 (g a).1 := by
    intro d
    induction d with
    | zero => intro h; omega
    | succ d ih =>
      intro _ a
      rcases Nat.eq_zero_or_pos d with rfl | hd
      · exact Relation.TransGen.single (gedge a)
      · exact Relation.TransGen.head
          (show edgeRel t (g (a + d + 1)).1 (g (a + d)).1 from gedge (a + d))
          (ih hd a)
  have hmaps : ∀ n ∈ Finset.range (t.devices.length + 1),
      (g n).1 ∈ t.devices.toFinset := by
    intro n _
    exact List.mem_toFinset.mpr (g n).2.1
  have hcard : t.devices.toFinset.card < (Finset.range (t.devices.length + 1)).card := by
    have := t.devices.toFinset_card_le
    simp only [Finset.card_range]
    omega
  rcases Finset.exists_ne_map_eq_of_card_lt_of_maps_to hcard hmaps with
    ⟨i, -, j, -, hij, hgij⟩
  rcases Nat.lt_or_ge i j with hlt | hge
  · refine ⟨(g j).1, ?_⟩
    have := gchain (j - i) (by omega) i
    rw [show i + (j - i) = j by omega] at this
    rw [hgij] at this
    exact this
  · have hlt : j < i := by
      rcases Nat.eq_or_lt_of_le hge with heq | h
      · exact absurd heq.symm hij
      · exact h
    refine ⟨(g i).1, ?_⟩
    have := gchain (i - j) (by omega) j
    rw [show j + (i - j) = i by omega] at this
    rw [← hgij] at this
    exact this

/-- C5: `generate_schedule` raises (returns no schedule) exactly when the
directed link graph has a cycle; the empty topology is not an error and
yields the empty schedule. -/
theorem c5_cycle_rejection (s : NetworkScheduler) (hw : WFt s.topo) :
    ((generate_schedule s = none) ↔ hasCycle s.topo) ∧
      (generate_schedule initScheduler).map Prod.fst = some [] := by
  constructor
  · have hgen : generate_schedule s = none ↔ calcForwardingD s.topo = none := by
      unfold generate_schedule
      cases h : calcForwardingD s.topo <;> simp [h]
    rw [hgen, calc_none_iff]
    constructor
    · intro hany
      apply cycle_of_not_all_processed s.topo hw
      intro hall
      rw [(allProcessed_iff s.topo hw).mpr hall] at hany
      simp at hany
    · intro hcyc
      by_cases hany : s.topo.devices.any (fun v => decide
          (0 < (kahnRun s.topo s.topo.devices.length
            (kahnInit s.topo)).indeg v)) = true
      · exact hany
      · exfalso
        have hall := (allProcessed_iff s.topo hw).mp (by simpa using hany)
        exact no_cycle_of_all_processed s.topo hw hall hcyc
  · rfl

/-- The 2-cycle `A→B→A`, for the C5 witness. -/
def cyc2 : NetworkScheduler :=
  addPath (addPath (add_device (add_device initScheduler "A" 1) "B" 1)
    "A" "B") "B" "A"

/-- Witness for C5: the cyclic topology is rejected. -/
theorem c5_witness : generate_schedule cyc2 = none :=
  (c5_cycle_rejection cyc2 ⟨by decide, by decide, by decide, by decide⟩).1.mpr
    ⟨"A", Relation.TransGen.head
      (show ("A", "B") ∈ cyc2.topo.connections by decide)
      (Relation.TransGen.single
        (show ("B", "A") ∈ cyc2.topo.connections by decide))⟩

/-! ## C7: no topology mutation, and the second call returns the same -/

theorem igAddNbr_id (g : List (Nat × List Nat)) (i j : Nat)
    (h : j ∈ igNbrs g i) : igAddNbr g i j = g := by
  induction g with
  | nil => simp [igNbrs, List.find?] at h
  | cons e rest ih =>
    rcases e with ⟨k, ns⟩
    by_cases hk : k = i
    · subst hk
      have : igNbrs ((k, ns) :: rest) k = ns := by
        simp [igNbrs, List.find?]
      rw [this] at h
      simp [igAddNbr, h]
    · have : igNbrs ((k, ns) :: rest) i = igNbrs rest i := by
        simp only [igNbrs, List.find?]
        rw [show (k == i) = false by simpa using hk]
      rw [this] at h
      simp [igAddNbr, hk, ih h]

theorem igAdd_id (g : List (Nat × List Nat)) (i j : Nat)
    (h1 : j ∈ igNbrs g i) (h2 : i ∈ igNbrs g j) : igAdd g i j = g := by
  unfold igAdd
  rw [igAddNbr_id g i j h1, igAddNbr_id g j i h2]

theorem buildIG_mem_pairs (trans : List (String × String))
    (g0 : List (Nat × List Nat)) (i j : Nat) (h : igEdgeP trans i j) :
    j ∈ igNbrs (buildIG trans g0) i ∧ i ∈ igNbrs (buildIG trans g0) j :=
  ⟨(mem_igNbrs_buildIG trans g0 j i).mpr (Or.inr (Or.inl h)),
   (mem_igNbrs_buildIG trans g0 i j).mpr (Or.inr (Or.inr h))⟩

theorem buildIG_inner_id (trans : List (String × String))
    (G : List (Nat × List Nat)) (i : Nat)
    (hpres : ∀ j, igEdgeP trans i j →
      j ∈ igNbrs G i ∧ i ∈ igNbrs G j) :
    ∀ (l : List Nat), (∀ j ∈ l, j < trans.length) →
      l.foldl (fun g j =>
        if i < j then
          if interferesB (trans.getD i ("", "")) (trans.getD j ("", "")) then igAdd g i j
          else g
        else g) G = G := by
  intro l
  induction l with
  | nil => intro _; rfl
  | cons j l ih =>
    intro hlt
    simp only [List.foldl_cons]
    have hstep : (if i < j then
        if interferesB (trans.getD i ("", "")) (trans.getD j ("", "")) then igAdd G i j
        else G
      else G) = G := by
      by_cases h1 : i < j
      · by_cases h2 :
          interferesB (trans.getD i ("", "")) (trans.getD j ("", "")) = true
        · rw [if_pos h1, if_pos h2]
          have hedge : igEdgeP trans i j :=
            ⟨h1, hlt j (List.mem_cons_self j l), h2⟩
          exact igAdd_id G i j (hpres j hedge).1 (hpres j hedge).2
        · rw [if_pos h1, if_neg (by simpa using h2)]
      · rw [if_neg h1]
    rw [hstep]
    exact ih (fun j' hj' => hlt j' (List.mem_cons_of_mem j hj'))

/-- Re-running `_build_interference_graph` on the graph it already built
adds nothing: every conflict pair is already present. -/
theorem buildIG_idem (trans : List (String × String))
    (g0 : List (Nat × List Nat)) :
    buildIG trans (buildIG trans g0) = buildIG trans g0 := by
  conv_lhs => rw [buildIG]
  have : ∀ (l : List Nat),
      l.foldl (fun g i => (List.range trans.length).foldl (fun g j =>
        if i < j then
          if interferesB (trans.getD i ("", "")) (trans.getD j ("", "")) then igAdd g i j
          else g
        else g) g) (buildIG trans g0) = buildIG trans g0 := by
    intro l
    induction l with
    | nil => rfl
    | cons i l ih =>
      simp only [List.foldl_cons]
      rw [buildIG_inner_id trans (buildIG trans g0) i
        (fun j hedge => buildIG_mem_pairs trans g0 i j hedge)
        (List.range trans.length) (fun j hj => List.mem_range.mp hj)]
      exact ih
  exact this (List.range trans.length)

/-- C7: `generate_schedule` leaves the topology fields untouched, and a
second call on the returned scheduler object yields the same schedule and
the same object. -/
theorem c7_no_mutation_idempotent (s : NetworkScheduler)
    (r : List (List (String × String)) × NetworkScheduler)
    (h : generate_schedule s = some r) :
    (r.2.devices = s.devices ∧ r.2.connections = s.connections ∧
      r.2.originalPackets = s.originalPackets) ∧
    generate_schedule r.2 = some (r.1, r.2) := by
  obtain ⟨ttf, hc, hr2, hr1⟩ := generate_schedule_eq h
  rcases r with ⟨sched, s1⟩
  simp only at hr2 hr1
  subst hr2
  subst hr1
  refine ⟨⟨rfl, rfl, rfl⟩, ?_⟩
  unfold generate_schedule
  have htopo : ({ s with
      shortestPath := shortestPathsD s.topo
      totalTransmissions := ttf
      interferenceGraph :=
        buildIG (buildTransD s.topo ttf) s.interferenceGraph
      transmissions := buildTransD s.topo ttf } :
        NetworkScheduler).topo = s.topo := rfl
  rw [htopo, hc]
  simp only [Option.some.injEq]
  rw [buildIG_idem]

/-- Witness for C7 on the chain `A→B→C`. -/
theorem c7_witness :
    (((generate_schedule chainABC).get (by rfl)).2.devices = chainABC.devices ∧
      ((generate_schedule chainABC).get (by rfl)).2.connections =
        chainABC.connections ∧
      ((generate_schedule chainABC).get (by rfl)).2.originalPackets =
        chainABC.originalPackets) ∧
    generate_schedule ((generate_schedule chainABC).get (by rfl)).2 =
      some (((generate_schedule chainABC).get (by rfl)).1,
        ((generate_schedule chainABC).get (by rfl)).2) :=
  c7_no_mutation_idempotent chainABC ((generate_schedule chainABC).get (by rfl))
    (Option.some_get (by rfl)).symm
